import Mathlib

/-!
Verification of the hybrid_chat_test RAG pipeline (Vietnam_travels repository).

Python strings are modelled as `List Char`; `re` scanning is modelled by
explicit left-to-right scanners with the same non-overlapping-match,
resume-after-match semantics as `re.sub`.  Whitespace (`\s`, `str.strip`)
and line breaks (`str.splitlines`) are modelled over their ASCII subsets;
exotic Unicode whitespace is out of scope of this embedding, and is used
consistently in every definition.
-/

namespace HybridChat

abbrev Str := List Char

/-- ASCII model of Python whitespace (`\s` in `re`, and `str.strip`). -/
def isPySpace (c : Char) : Bool :=
  c = ' ' || c = '\t' || c = '\n' || c = '\r' || c = '\x0b' || c = '\x0c'

/-- ASCII model of the line boundaries recognised by `str.splitlines`. -/
def isLineBreak (c : Char) : Bool :=
  c = '\n' || c = '\r' || c = '\x0b' || c = '\x0c'

/-- ASCII lower-casing, for the `re.IGNORECASE` flag. -/
def lowerChar (c : Char) : Char :=
  if 'A' ≤ c ∧ c ≤ 'Z' then Char.ofNat (c.toNat + 32) else c

/-- Case-insensitive literal matching: `matchCI pat s` succeeds when `s`
starts with `pat` (pattern given in lower case) and returns the rest of `s`,
together with a length certificate used for termination of the scanners. -/
def matchCI : (pat : Str) → (s : Str) → Option { r : Str // r.length + pat.length = s.length }
  | [], s => some ⟨s, by simp⟩
  | _ :: _, [] => none
  | p :: ps, c :: cs =>
    if lowerChar c = p then
      match matchCI ps cs with
      | none => none
      | some ⟨r, h⟩ => some ⟨r, by simp [← h]; omega⟩
    else none

/-- Split at the first `close` character: returns the part strictly before it
and the part strictly after it, with certificates used both for termination
and for reasoning about the scanners. -/
def splitAtClose (close : Char) : (s : Str) →
    Option { p : Str × Str // s = p.1 ++ close :: p.2 ∧ close ∉ p.1 }
  | [] => none
  | c :: cs =>
    if h : c = close then some ⟨([], cs), by simp [h]⟩
    else
      match splitAtClose close cs with
      | none => none
      | some ⟨(a, b), h1, h2⟩ =>
        some ⟨(c :: a, b), by simp [h1, h2], by simp [h2, Ne.symm h]⟩

/-- One attempt of the regex `score:\s*\d+\.\d+` (IGNORECASE) at the head of
`s`; on success returns the remainder of `s` after the match. -/
def matchScore (s : Str) : Option { r : Str // r.length < s.length } :=
  match matchCI ("score:".toList) s with
  | none => none
  | some ⟨r1, h1⟩ =>
    let r2 := r1.dropWhile isPySpace
    let d1 := r2.takeWhile Char.isDigit
    let r3 := r2.dropWhile Char.isDigit
    if d1 = [] then none
    else
      match h5 : r3 with
      | '.' :: r4 =>
        let d2 := r4.takeWhile Char.isDigit
        if d2 = [] then none
        else
          some ⟨r4.dropWhile Char.isDigit, by
            have h2 : r2.length ≤ r1.length := (List.dropWhile_suffix isPySpace).length_le
            have h3 : r3.length ≤ r2.length := (List.dropWhile_suffix Char.isDigit).length_le
            have h4 : (r4.dropWhile Char.isDigit).length ≤ r4.length :=
              (List.dropWhile_suffix Char.isDigit).length_le
            have h6 : r4.length + 1 = r3.length := by rw [h5]; simp
            simp [← h1]; omega⟩
      | _ => none

/-- `re.sub(r"score:\s*\d+\.\d+", "", s, flags=re.IGNORECASE)`
(prompting.py line 82). -/
def rsScore : Str → Str
  | [] => []
  | c :: rest =>
    match matchScore (c :: rest) with
    | some ⟨r, hr⟩ => rsScore r
    | none => c :: rsScore rest
termination_by s => s.length
decreasing_by
  · exact hr
  · simp

/-- One attempt of `\[\s*node_id\s*:\s*[^\]]+\]` (resp. the parenthesised
variant) at the head of `s`: after the opening bracket we need optional
whitespace, the literal `node_id` (IGNORECASE), optional whitespace, a colon,
and then at least one character before the next closing bracket. -/
def matchNodeId (openC closeC : Char) (s : Str) : Option { r : Str // r.length < s.length } :=
  match s with
  | [] => none
  | c :: cs =>
    if c = openC then
      let s2 := cs.dropWhile isPySpace
      match matchCI ("node_id".toList) s2 with
      | none => none
      | some ⟨s3, h3⟩ =>
        match h4 : s3.dropWhile isPySpace with
        | ':' :: s5 =>
          match splitAtClose closeC s5 with
          | none => none
          | some ⟨(mid, after), hsplit, _⟩ =>
            if mid = [] then none
            else
              some ⟨after, by
                have e2 : s2.length ≤ cs.length := (List.dropWhile_suffix isPySpace).length_le
                have e3 : s3.length ≤ s2.length := by omega
                have e4 : (s3.dropWhile isPySpace).length ≤ s3.length :=
                  (List.dropWhile_suffix isPySpace).length_le
                have e5 : s5.length + 1 = (s3.dropWhile isPySpace).length := by rw [h4]; simp
                have e6 : after.length < s5.length := by
                  rw [hsplit]; simp; omega
                simp; omega⟩
        | _ => none
    else none

/-- `re.sub` over the whole string for the `node_id` leak patterns
(prompting.py lines 83-84). -/
def rmNodeId (openC closeC : Char) : Str → Str
  | [] => []
  | c :: rest =>
    match matchNodeId openC closeC (c :: rest) with
    | some ⟨r, hr⟩ => rmNodeId openC closeC r
    | none => c :: rmNodeId openC closeC rest
termination_by s => s.length
decreasing_by
  · exact hr
  · simp

def rbNodeId (s : Str) : Str := rmNodeId '[' ']' s

def rpNodeId (s : Str) : Str := rmNodeId '(' ')' s

/-- `re.sub(r" {2,}", " ", s)` (prompting.py line 85): every maximal run of
spaces of length at least two is replaced by a single space. -/
def collapseSpaces : Str → Str
  | [] => []
  | c :: rest =>
    if c = ' ' then ' ' :: collapseSpaces (rest.dropWhile (· = ' '))
    else c :: collapseSpaces rest
termination_by s => s.length
decreasing_by
  · simp only [List.length_cons]
    exact Nat.lt_succ_of_le ((List.dropWhile_suffix _).length_le)
  · simp

/-- `str.splitlines` over the modelled line-break set, pairing `\r\n`. -/
def splitlines : Str → List Str
  | [] => []
  | c :: cs =>
    let line := (c :: cs).takeWhile (fun ch => !isLineBreak ch)
    match hr : (c :: cs).dropWhile (fun ch => !isLineBreak ch) with
    | [] => [line]
    | b :: bs =>
      if b = '\r' then
        match hbs : bs with
        | '\n' :: r => line :: splitlines r
        | other => line :: splitlines other
      else line :: splitlines bs
termination_by s => s.length
decreasing_by
  all_goals
    have hle : ((c :: cs).dropWhile (fun ch => !isLineBreak ch)).length ≤ (c :: cs).length :=
      (List.dropWhile_suffix (fun ch => !isLineBreak ch)).length_le
    rw [hr] at hle
    simp at hle ⊢
    omega

/-- `'\n'.join`. -/
def joinNl : List Str → Str
  | [] => []
  | [l] => l
  | l :: ls => l ++ '\n' :: joinNl ls

/-- `pat.isPrefixOf s` as an explicit boolean. -/
def beginsWith : (pat : Str) → (s : Str) → Bool
  | [], _ => true
  | _ :: _, [] => false
  | p :: ps, c :: cs => p = c && beginsWith ps cs

/-- `re.match(r"^\s*(Note:|Validation:)", ln)` succeeds exactly when the line,
after its leading whitespace, starts with one of the two literals. -/
def matchesNoteOrValidation (ln : Str) : Bool :=
  beginsWith ("Note:".toList) (ln.dropWhile isPySpace) ||
  beginsWith ("Validation:".toList) (ln.dropWhile isPySpace)

def keepLine (ln : Str) : Bool := !matchesNoteOrValidation ln

/-- `str.strip()` over the modelled whitespace set. -/
def pyStrip (s : Str) : Str :=
  (((s.dropWhile isPySpace).reverse).dropWhile isPySpace).reverse

/-- The tail of the sanitizer: space collapsing, `Note:`/`Validation:` line
dropping, and stripping (prompting.py lines 85-87). -/
def sanitizeTail (s : Str) : Str :=
  pyStrip (joinNl (((splitlines (collapseSpaces s))).filter keepLine))

/-- `sanitize_answer` (prompting.py lines 81-87). -/
def sanitize_answer (s : Str) : Str :=
  sanitizeTail (rpNodeId (rbNodeId (rsScore s)))

/-- The `metadata` dictionary of a vector match.  Missing keys are `none`. -/
structure Meta where
  name : Option Str
  type : Option Str
  tags : Option (List Str)
  city : Option Str
deriving DecidableEq

/-- A vector-search match.  Scores are modelled as rationals: the pipeline
only compares and forwards them; their float rendering is abstracted as an
explicit formatting argument below. -/
structure Match where
  id : Option Str
  score : Option ℚ
  metadata : Option Meta
deriving DecidableEq

/-- A graph fact as built by `fetch_graph_context` and consumed by prompting.
All six keys are always present in the dict built by graph.py; `Option`
fields model values that may be Python `None` there.  `target_desc` is
always a genuine string (graph.py line 40 applies `or ""`), which the
consumers rely on when slicing it. -/
structure GraphFact where
  source : Option Str
  rel : Option Str
  target_id : Option Str
  target_name : Option Str
  target_desc : Str
  labels : Option (List Str)
deriving DecidableEq

/-- A prompt turn. -/
structure Turn where
  role : Str
  content : Str
deriving DecidableEq

def emptyMeta : Meta := ⟨none, none, none, none⟩

/-- `m.get('metadata', {})`. -/
def metaOf (m : Match) : Meta := m.metadata.getD emptyMeta

/-- Python f-string rendering of a possibly-missing string value
(`None` prints as `None`). -/
def optStr : Option Str → Str
  | none => "None".toList
  | some s => s

/-- Python f-string rendering of a possibly-missing score, with `fmtF`
standing for float rendering (not modelled). -/
def optScoreStr (fmtF : ℚ → Str) : Option ℚ → Str
  | none => "None".toList
  | some q => fmtF q

/-- `sep.join(xs)`. -/
def joinSep (sep : Str) : List Str → Str
  | [] => []
  | [x] => x
  | x :: xs => x ++ sep ++ joinSep sep xs

/-- The comparison used by `sorted(..., key=lambda x: x.get('score', 0),
reverse=True)`: `a` may stay before `b` iff its score is at least `b`'s.
Python's sort is stable; so is `List.mergeSort`. -/
def scoreLe (a b : Match) : Bool := decide ((b.score.getD 0) ≤ (a.score.getD 0))

/-- prompting.py line 20: one vector snippet of the summary.  `fmt2` stands
for the `{score:.2f}` float formatting (not modelled). -/
def vecSnippet (fmt2 : ℚ → Str) (m : Match) : Str :=
  ("- ".toList) ++ (metaOf m).name.getD ("Unknown".toList) ++ (": ".toList)
    ++ (metaOf m).type.getD ("Unknown".toList) ++ (" (tags: ".toList)
    ++ joinSep (", ".toList) ((metaOf m).tags.getD []) ++ (", score: ".toList)
    ++ fmt2 (m.score.getD 0) ++ (")".toList)

/-- prompting.py line 22: one graph snippet of the summary (the key is
present, so `f.get('target_name','')` yields the stored value, and a stored
`None` renders as `None`). -/
def graphSnippet (f : GraphFact) : Str :=
  ("- ".toList) ++ optStr f.target_name ++ (": ".toList)
    ++ f.target_desc.take 120 ++ ("...".toList)

/-- `search_summary` (prompting.py lines 15-23). -/
def search_summary (fmt2 : ℚ → Str) (pinecone_matches : List Match)
    (graph_facts : List GraphFact) : Str :=
  let vec_snippets := ((List.mergeSort pinecone_matches scoreLe).take 5).map (vecSnippet fmt2)
  let graph_snippets := (graph_facts.take 7).map graphSnippet
  ("Prioritized Vector matches:\n".toList) ++ joinNl vec_snippets
    ++ ("\n\nPrioritized Graph facts:\n".toList) ++ joinNl graph_snippets

/-- prompting.py line 28 (`build_prompt`). -/
def tripLengthOf (q : Str) : Int := if '4' ∈ q then 4 else 3

/-- cli.py line 39: the trip length recomputed by the chat loop for
validation. -/
def cliTripLength (q : Str) : Int := if '4' ∈ q then 4 else 3

def intStr (n : Int) : Str := (toString n).toList

structure Template where
  system : Str
  suffix : Str
deriving DecidableEq

def conciseTemplate (tl : Int) : Template :=
  ⟨("You are a helpful, concise travel assistant.".toList),
   ("Provide exactly ".toList) ++ intStr tl
     ++ ("-day itineraries with timings and local tips. Be concise and factual.".toList)⟩

def chainOfThoughtTemplate (tl : Int) : Template :=
  ⟨("You are a helpful travel assistant who explains reasoning clearly.".toList),
   ("Provide exactly ".toList) ++ intStr tl
     ++ ("-day itineraries with timings and local tips. After the itinerary, include a short \x27Reasoning\x27 section that lists the key assumptions and steps used to produce the plan (3-5 bullet points). Keep the reasoning concise and factual.".toList)⟩

/-- `TEMPLATES.get(template_name, TEMPLATES["concise"])`. -/
def templateFor (name : Str) (tl : Int) : Template :=
  if name = ("concise".toList) then conciseTemplate tl
  else if name = ("chain_of_thought".toList) then chainOfThoughtTemplate tl
  else conciseTemplate tl

/-- Python `dict.get` over an association-list model of a dict
(keys are unique in a Python dict, so first match is the binding). -/
def dictGet (d : List (Str × Str)) (k : Str) : Option Str :=
  (d.find? (fun kv => decide (kv.1 = k))).map (·.2)

/-- `(preferences or {}).get("template") or "concise"` (prompting.py
line 41): both a missing key and an empty value fall back to "concise". -/
def templateNameOf (prefs : List (Str × Str)) : Str :=
  match dictGet prefs ("template".toList) with
  | some t => if t = [] then ("concise".toList) else t
  | none => ("concise".toList)

/-- `repr` of a plain string (quoting modelled for apostrophe-free text). -/
def reprStr (s : Str) : Str := '\x27' :: (s ++ ['\x27'])

/-- `str(preferences)` for the association-list dict model. -/
def reprDict (d : List (Str × Str)) : Str :=
  ['\x7b'] ++ joinSep (", ".toList) (d.map (fun kv => reprStr kv.1 ++ (": ".toList) ++ reprStr kv.2))
    ++ ['\x7d']

/-- prompting.py line 49: one serialized vector match of the prompt body. -/
def vecContextLine (fmtF : ℚ → Str) (m : Match) : Str :=
  ("- id: ".toList) ++ optStr m.id ++ (", name: ".toList) ++ (metaOf m).name.getD []
    ++ (", type: ".toList) ++ (metaOf m).type.getD []
    ++ (", score: ".toList) ++ optScoreStr fmtF m.score

/-- prompting.py line 51: one serialized graph fact of the prompt body. -/
def graphContextLine (f : GraphFact) : Str :=
  ("- (".toList) ++ optStr f.source ++ (") -[".toList) ++ optStr f.rel
    ++ ("]-> (".toList) ++ optStr f.target_id ++ (") ".toList) ++ optStr f.target_name
    ++ (": ".toList) ++ f.target_desc

/-- `build_prompt` (prompting.py lines 26-62).  `fmtF` and `fmt2` stand for
the two float renderings (`str(float)` and `:.2f`), which are not modelled. -/
def build_prompt (user_query : Str) (pinecone_matches : List Match)
    (graph_facts : List GraphFact) (preferences : Option (List (Str × Str)))
    (fmtF fmt2 : ℚ → Str) : List Turn :=
  let prefs := preferences.getD []
  let trip_length := tripLengthOf user_query
  let template := templateFor (templateNameOf prefs) trip_length
  let system := template.system ++ ' ' :: template.suffix
  let vec_context := (pinecone_matches.take 10).map (vecContextLine fmtF)
  let graph_context := (graph_facts.take 15).map graphContextLine
  let summary := search_summary fmt2 pinecone_matches graph_facts
  let user_content := ("User query: ".toList) ++ user_query ++ ("\n\n".toList)
      ++ ("Preferences: ".toList) ++ reprDict prefs ++ ("\n\n".toList)
      ++ ("Summary:\n".toList) ++ summary ++ ("\n\n".toList)
      ++ ("Top semantic matches:\n".toList) ++ joinNl vec_context ++ ("\n\n".toList)
      ++ ("Graph facts:\n".toList) ++ joinNl graph_context ++ ("\n\n".toList)
      ++ ("Please produce the requested output.".toList)
  [⟨("system".toList), system⟩, ⟨("user".toList), user_content⟩]

/-- `validate_response` (prompting.py lines 75-78). -/
def validate_response (response : Str) (trip_length : Int) : Str :=
  if ¬ ((("Day ".toList) ++ intStr trip_length) <:+: response) then
    ("Response incomplete: Missing Day ".toList) ++ intStr trip_length ++ (".".toList)
  else ("Valid".toList)

/-- `[A-Za-z0-9_-]`. -/
def isIdChar (c : Char) : Bool := c.isAlpha || c.isDigit || c = '_' || c = '-'

/-- `\s*:\s*` at the head of `s`, returning the remainder. -/
def matchIdColon (s : Str) : Option Str :=
  match s.dropWhile isPySpace with
  | ':' :: r => some (r.dropWhile isPySpace)
  | _ => none

/-- The optional marker `(?:(?:node[_ ]?id|nodeid|id)\s*:\s*)` of the
citation id pattern (IGNORECASE), tried at the head of `s`; it participates
in the match only when at least one id character follows it, mirroring the
regex engine's backtracking order. -/
def afterIdMarker (s : Str) : Option Str :=
  let tryTail : Str → Option Str := fun r =>
    match matchIdColon r with
    | some r3 =>
      match r3 with
      | c :: _ => if isIdChar c then some r3 else none
      | [] => none
    | none => none
  let viaId : Str → Option Str := fun t =>
    match matchCI ("id".toList) t with
    | some ⟨r2, _⟩ => tryTail r2
    | none => none
  match matchCI ("node".toList) s with
  | some ⟨r, _⟩ =>
    (match r with
     | c :: r' =>
       if c = '_' ∨ c = ' ' then
         match viaId r' with
         | some r3 => some r3
         | none =>
           match viaId r with
           | some r3 => some r3
           | none => viaId s
       else
         match viaId r with
         | some r3 => some r3
         | none => viaId s
     | [] => viaId s)
  | none => viaId s

/-- `re.search(r"(?:(?:node[_ ]?id|nodeid|id)\s*:\s*)?(?P<id>[A-Za-z0-9_-]+)",
raw, re.IGNORECASE)`: first position admitting a match is the first id
character; there, the optional marker takes precedence. -/
def extractIdAux : Str → Option Str
  | [] => none
  | c :: cs =>
    if isIdChar c then
      match afterIdMarker (c :: cs) with
      | some r3 => some (r3.takeWhile isIdChar)
      | none => some ((c :: cs).takeWhile isIdChar)
    else extractIdAux cs

/-- `nodeid = m_id.group('id') if m_id else raw` (prompting.py line 102). -/
def extractId (raw : Str) : Str :=
  match extractIdAux raw with
  | some i => i
  | none => raw

/-- One insertion into the `meta_by_id` dict: skipped for falsy ids,
overwriting for truthy ones. -/
def dictStepM (d : Str → Option Meta) (m : Match) : Str → Option Meta :=
  match m.id with
  | some i => if i ≠ [] then (fun k => if k = i then some (metaOf m) else d k) else d
  | none => d

/-- `meta_by_id` (prompting.py line 96): dict built left to right, later
truthy ids overwrite earlier ones. -/
def metaById (ms : List Match) : Str → Option Meta :=
  ms.foldl dictStepM (fun _ => none)

/-- One insertion into the `facts_by_id` dict. -/
def dictStepF (d : Str → Option GraphFact) (f : GraphFact) : Str → Option GraphFact :=
  match f.target_id with
  | some i => if i ≠ [] then (fun k => if k = i then some f else d k) else d
  | none => d

/-- `facts_by_id` (prompting.py line 97). -/
def factById (fs : List GraphFact) : Str → Option GraphFact :=
  fs.foldl dictStepF (fun _ => none)

/-- Rendering of a match hit (prompting.py lines 104-107). -/
def renderMeta (meta : Meta) : Str :=
  let typ := match meta.type with
    | some t => if t = [] then ("Entity".toList) else t
    | none => ("Entity".toList)
  let tags := meta.tags.getD []
  if tags ≠ [] then typ ++ (" (".toList) ++ joinSep (", ".toList) tags ++ (")".toList)
  else typ

def citationKeywords : List Str :=
  [("romantic".toList), ("beach".toList), ("culture".toList), ("heritage".toList),
   ("food".toList), ("nature".toList), ("mountain".toList)]

def toLowerStr (s : Str) : Str := s.map lowerChar

/-- Rendering of a graph-fact hit (prompting.py lines 108-113). -/
def renderFact (f : GraphFact) : Str :=
  let typ := match f.labels with
    | some (l :: _) => if l = [] then ("Entity".toList) else l
    | some [] => ("Entity".toList)
    | none => ("Entity".toList)
  let desc := f.target_desc
  let found := citationKeywords.filter (fun kw => decide (kw <:+: toLowerStr desc))
  if found ≠ [] then typ ++ (" (".toList) ++ joinSep (", ".toList) found ++ (")".toList)
  else typ

/-- The `repl` callback (prompting.py lines 99-114) on the bracket content of
one placeholder. -/
def replPlaceholder (ms : List Match) (fs : List GraphFact) (content : Str) : Str :=
  let raw := pyStrip content
  let nodeid := extractId raw
  match metaById ms nodeid with
  | some meta => renderMeta meta
  | none =>
    match factById fs nodeid with
    | some f => renderFact f
    | none => '[' :: (content ++ [']'])

/-- `re.sub(r"\[\s*([^\]]+)\s*\]", repl, response)`: left-to-right scan; a
bracket opens a match exactly when a later closing bracket exists with
non-empty content, and scanning resumes after the match. -/
def expandScan (ms : List Match) (fs : List GraphFact) : Str → Str
  | [] => []
  | c :: rest =>
    if c = '[' then
      match splitAtClose ']' rest with
      | some ⟨(content, after), happ, _⟩ =>
        if content ≠ [] then replPlaceholder ms fs content ++ expandScan ms fs after
        else c :: expandScan ms fs rest
      | none => c :: expandScan ms fs rest
    else c :: expandScan ms fs rest
termination_by s => s.length
decreasing_by
  all_goals first
  | (rw [happ]; simp; omega)
  | simp

/-- `expand_citations` (prompting.py lines 90-116); `None` or empty
match/fact arguments are both normalised to the empty list.  (`matches` is a
reserved word in Lean, hence the trailing underscore.) -/
def expand_citations (response : Str) (matches_ : Option (List Match))
    (graph_facts : Option (List GraphFact)) : Str :=
  expandScan (matches_.getD []) (graph_facts.getD []) response

structure ChatCall where
  messages : List Turn
  max_tokens : Nat
deriving DecidableEq

def followupTurn : Turn :=
  ⟨("user".toList),
   ("The previous response was incomplete. Please complete the missing day(s) and ensure all days are covered.".toList)⟩

/-- One iteration of the `while` loop of `interactive_chat` (cli.py lines
17-53) after the matches and graph facts have been fetched.  The LLM
endpoint is the oracle argument; the returned list logs every completion
call with its prompt and `max_tokens` budget. -/
def interactive_chat_step (oracle : List Turn → Nat → Str) (query : Str)
    (ms : List Match) (fs : List GraphFact) (preferences : Option (List (Str × Str)))
    (fmtF fmt2 : ℚ → Str) : Str × List ChatCall :=
  let prompt := build_prompt query ms fs preferences fmtF fmt2
  let answer := oracle prompt 1100
  let validation := validate_response answer (cliTripLength query)
  if validation ≠ ("Valid".toList) then
    let prompt_extended := prompt ++ [followupTurn]
    let answer2 := oracle prompt_extended 1200
    (sanitize_answer (expand_citations answer2 (some ms) (some fs)),
     [⟨prompt, 1100⟩, ⟨prompt_extended, 1200⟩])
  else
    (sanitize_answer (expand_citations answer (some ms) (some fs)),
     [⟨prompt, 1100⟩])

/-- A record returned by the Cypher query of `fetch_graph_context`
(graph.py lines 22-31); values may be Python `None`. -/
structure NeoRecord where
  rel : Option Str
  labels : Option (List Str)
  id : Option Str
  name : Option Str
  type : Option Str
  description : Option Str
  rel2 : Option Str
  labels2 : Option (List Str)
  id2 : Option Str
  name2 : Option Str
  type2 : Option Str
  description2 : Option Str
deriving DecidableEq

/-- Python truthiness of an optional string (`if r["rel2"]:`). -/
def truthyOptStr : Option Str → Bool
  | none => false
  | some s => !s.isEmpty

/-- The facts appended for one record (graph.py lines 33-52): the 1-hop fact,
then the 2-hop fact when `rel2` is truthy. -/
def factsOfRecord (r : NeoRecord) : List GraphFact :=
  ⟨none, r.rel, r.id, r.name, (r.description.getD []).take 400, r.labels⟩ ::
  (if truthyOptStr r.rel2 then
    [⟨r.id, r.rel2, r.id2, r.name2, (r.description2.getD []).take 400, r.labels2⟩]
   else [])

/-- `fetch_graph_context` (graph.py lines 17-53) as a function of the records
the database returns for the given node ids; the Cypher round trip itself is
external. -/
def fetch_graph_context (node_ids : List Str) (recs : List NeoRecord) : List GraphFact :=
  ((recs.map factsOfRecord).flatten).take 50

/-! SHA-256 (FIPS 180-4) over `Nat` with explicit `% 2^32`, for
`get_text_hash` (embed.py lines 70-73), which feeds
`hashlib.sha256(key.encode()).hexdigest()`. -/

def w32 : Nat := 4294967296

/-- UTF-8 encoding of one character (`str.encode()`). -/
def utf8Char (c : Char) : List Nat :=
  let n := c.toNat
  if n < 128 then [n]
  else if n < 2048 then [192 + n / 64, 128 + n % 64]
  else if n < 65536 then [224 + n / 4096, 128 + (n / 64) % 64, 128 + n % 64]
  else [240 + n / 262144, 128 + (n / 4096) % 64, 128 + (n / 64) % 64, 128 + n % 64]

def utf8Bytes (s : Str) : List Nat := s.flatMap utf8Char

/-- 32-bit right rotation. -/
def rotr (n x : Nat) : Nat := (x / 2 ^ n + (x % 2 ^ n) * 2 ^ (32 - n)) % w32

/-- 32-bit complement of a word below `2^32`. -/
def not32 (x : Nat) : Nat := 4294967295 - x

/-- Bitwise exclusive or of the low `k` bits, by structural recursion so that
the kernel can evaluate it. -/
def xorBits : (k : Nat) → Nat → Nat → Nat
  | 0, _, _ => 0
  | k + 1, a, b => (if a % 2 = b % 2 then 0 else 1) + 2 * xorBits k (a / 2) (b / 2)

/-- Bitwise conjunction of the low `k` bits. -/
def andBits : (k : Nat) → Nat → Nat → Nat
  | 0, _, _ => 0
  | k + 1, a, b => (a % 2) * (b % 2) + 2 * andBits k (a / 2) (b / 2)

def xor32 (a b : Nat) : Nat := xorBits 32 a b

def and32 (a b : Nat) : Nat := andBits 32 a b

def shaCh (e f g : Nat) : Nat := xor32 (and32 e f) (and32 (not32 e) g)

def shaMaj (a b c : Nat) : Nat := xor32 (xor32 (and32 a b) (and32 a c)) (and32 b c)

def bigSigma0 (a : Nat) : Nat := xor32 (xor32 (rotr 2 a) (rotr 13 a)) (rotr 22 a)

def bigSigma1 (e : Nat) : Nat := xor32 (xor32 (rotr 6 e) (rotr 11 e)) (rotr 25 e)

def smallSigma0 (x : Nat) : Nat := xor32 (xor32 (rotr 7 x) (rotr 18 x)) (x / 8)

def smallSigma1 (x : Nat) : Nat := xor32 (xor32 (rotr 17 x) (rotr 19 x)) (x / 1024)

def K256 : List Nat :=
  [1116352408, 1899447441, 3049323471, 3921009573, 961987163, 1508970993,
   2453635748, 2870763221, 3624381080, 310598401, 607225278, 1426881987,
   1925078388, 2162078206, 2614888103, 3248222580, 3835390401, 4022224774,
   264347078, 604807628, 770255983, 1249150122, 1555081692, 1996064986,
   2554220882, 2821834349, 2952996808, 3210313671, 3336571891, 3584528711,
   113926993, 338241895, 666307205, 773529912, 1294757372, 1396182291,
   1695183700, 1986661051, 2177026350, 2456956037, 2730485921, 2820302411,
   3259730800, 3345764771, 3516065817, 3600352804, 4094571909, 275423344,
   430227734, 506948616, 659060556, 883997877, 958139571, 1322822218,
   1537002063, 1747873779, 1955562222, 2024104815, 2227730452, 2361852424,
   2428436474, 2756734187, 3204031479, 3329325298]

structure Sha256State where
  a : Nat
  b : Nat
  c : Nat
  d : Nat
  e : Nat
  f : Nat
  g : Nat
  h : Nat
deriving DecidableEq

def shaInit : Sha256State :=
  ⟨1779033703, 3144134277, 1013904242, 2773480762,
   1359893119, 2600822924, 528734635, 1541459225⟩

/-- Message padding: `0x80`, zeros to 56 mod 64, then the 64-bit big-endian
bit length. -/
def padMessage (msg : List Nat) : List Nat :=
  let L := msg.length
  let k := (119 - L % 64) % 64
  let bits := 8 * L
  msg ++ 128 :: (List.replicate k 0
    ++ [bits / 2 ^ 56 % 256, bits / 2 ^ 48 % 256, bits / 2 ^ 40 % 256,
        bits / 2 ^ 32 % 256, bits / 2 ^ 24 % 256, bits / 2 ^ 16 % 256,
        bits / 2 ^ 8 % 256, bits % 256])

def chunks64 : List Nat → List (List Nat)
  | [] => []
  | c :: cs => ((c :: cs).take 64) :: chunks64 ((c :: cs).drop 64)
termination_by l => l.length
decreasing_by
  · simp [List.length_drop]; omega

def wordsOfBlock (b : List Nat) : List Nat :=
  (List.range 16).map (fun i =>
    (b.getD (4 * i) 0) * 16777216 + (b.getD (4 * i + 1) 0) * 65536
      + (b.getD (4 * i + 2) 0) * 256 + b.getD (4 * i + 3) 0)

/-- One step of the message-schedule extension. -/
def extendOnce (w : List Nat) : List Nat :=
  w ++ [(smallSigma1 (w.getD (w.length - 2) 0) + w.getD (w.length - 7) 0
         + smallSigma0 (w.getD (w.length - 15) 0) + w.getD (w.length - 16) 0) % w32]

def schedule (w16 : List Nat) : List Nat := extendOnce^[48] w16

def compressRound (s : Sha256State) (wk : Nat × Nat) : Sha256State :=
  let t1 := (s.h + bigSigma1 s.e + shaCh s.e s.f s.g + wk.2 + wk.1) % w32
  let t2 := (bigSigma0 s.a + shaMaj s.a s.b s.c) % w32
  ⟨(t1 + t2) % w32, s.a, s.b, s.c, (s.d + t1) % w32, s.e, s.f, s.g⟩

def compressBlock (h0 : Sha256State) (block : List Nat) : Sha256State :=
  let ws := schedule (wordsOfBlock block)
  let s := (List.zip ws K256).foldl compressRound h0
  ⟨(h0.a + s.a) % w32, (h0.b + s.b) % w32, (h0.c + s.c) % w32, (h0.d + s.d) % w32,
   (h0.e + s.e) % w32, (h0.f + s.f) % w32, (h0.g + s.g) % w32, (h0.h + s.h) % w32⟩

def sha256Words (msg : List Nat) : List Nat :=
  let s := (chunks64 (padMessage msg)).foldl compressBlock shaInit
  [s.a, s.b, s.c, s.d, s.e, s.f, s.g, s.h]

def wordBytes (w : Nat) : List Nat := [w / 16777216 % 256, w / 65536 % 256, w / 256 % 256, w % 256]

def sha256Bytes (msg : List Nat) : List Nat := (sha256Words msg).flatMap wordBytes

def hexDigitChar (n : Nat) : Char := if n < 10 then Char.ofNat (48 + n) else Char.ofNat (87 + n)

def byteHex (b : Nat) : Str := [hexDigitChar (b / 16 % 16), hexDigitChar (b % 16)]

/-- `hashlib.sha256(..).hexdigest()`. -/
def hexdigest (bytes : List Nat) : Str := bytes.flatMap byteHex

/-- `get_text_hash` (embed.py lines 70-73). -/
def get_text_hash (text : Str) (model : Option Str) : Str :=
  let key := match model with
    | none => text
    | some m => m ++ ':' :: text
  hexdigest (sha256Bytes (utf8Bytes key))

/-- The content of the first (system) turn of a prompt. -/
def systemContentOf : List Turn → Str
  | t :: _ => t.content
  | [] => []

/-- The template choice as the specification words it: the named template
when the name is one of the two known ones, `concise` when the key is
missing, empty, or unknown.  This is the spec-side definition compared
against the code's `or`/`dict.get` chain. -/
def specTemplateChoice (preferences : Option (List (Str × Str))) : Str :=
  match dictGet (preferences.getD []) ("template".toList) with
  | some t =>
    if t = ("concise".toList) ∨ t = ("chain_of_thought".toList) then t
    else ("concise".toList)
  | none => ("concise".toList)

/-- Adjacency relation of a well-paired graph-fact list: any 2-hop fact
(non-null source) must directly follow a 1-hop fact whose target is its
source. -/
def pairedRel (a b : GraphFact) : Prop :=
  ∀ s, b.source = some s → a.target_id = some s ∧ a.source = none

/-- Big-endian-free byte packing used to count distinct digests. -/
def packBytes : List Nat → Nat
  | [] => 0
  | b :: bs => b + 256 * packBytes bs

/-- All eight working variables are 32-bit words. -/
def shaBounded (s : Sha256State) : Prop :=
  s.a < w32 ∧ s.b < w32 ∧ s.c < w32 ∧ s.d < w32 ∧
  s.e < w32 ∧ s.f < w32 ∧ s.g < w32 ∧ s.h < w32

/-- A synthetic model endpoint whose answers never contain a `Day n` marker;
used to exercise the retry branch of the chat loop. -/
def oracleIncomplete : List Turn → Nat → Str := fun _ _ => ("Here is a plan.".toList)

/-- A trivial float rendering, used to instantiate witnesses. -/
def fmtTrivial : ℚ → Str := fun _ => []

/-- What remains after the line break that begins this string (the `\r\n`
pair is one boundary). -/
def breakTail : Str → Str
  | '\r' :: '\n' :: r => r
  | _ :: bs => bs
  | [] => []

/-- No two adjacent spaces (the fixpoints of the space collapser). -/
def noTwoSpaces (s : Str) : Prop :=
  List.Chain' (fun a b => ¬(a = ' ' ∧ b = ' ')) s

/-- Every line survives the `Note:`/`Validation:` filter. -/
def keepAllLines (s : Str) : Prop :=
  ∀ l ∈ splitlines s, keepLine l = true

/-- The only line-break character occurring is `\n`. -/
def onlyNlBreaks (s : Str) : Prop :=
  ∀ c ∈ s, isLineBreak c = true → c = '\n'

/-! ## Theorems -/

/-- `TEMPLATES.get` can only return one of the two templates. -/
theorem templateFor_cases (name : Str) (tl : Int) :
    templateFor name tl = conciseTemplate tl ∨ templateFor name tl = chainOfThoughtTemplate tl := by
  unfold templateFor
  split_ifs
  · exact Or.inl rfl
  · exact Or.inr rfl
  · exact Or.inl rfl

/-- Claim C4: `validate_response` returns exactly the string `"Valid"` iff the
literal substring `"Day {trip_length}"` occurs in the response; otherwise it
returns the incompleteness message naming the missing day, which differs from
`"Valid"`. -/
theorem claim_C4 (r : Str) (n : Int) :
    (validate_response r n = ("Valid".toList) ↔ (("Day ".toList) ++ intStr n) <:+: r)
    ∧ (¬ ((("Day ".toList) ++ intStr n) <:+: r) →
        validate_response r n
          = ("Response incomplete: Missing Day ".toList) ++ intStr n ++ (".".toList)
        ∧ validate_response r n ≠ ("Valid".toList)) := by
  by_cases h : (("Day ".toList) ++ intStr n) <:+: r
  · have hv : validate_response r n = ("Valid".toList) := by
      unfold validate_response; rw [if_neg (not_not_intro h)]
    exact ⟨⟨fun _ => h, fun _ => hv⟩, fun hc => absurd h hc⟩
  · have hm : validate_response r n
        = ("Response incomplete: Missing Day ".toList) ++ intStr n ++ (".".toList) := by
      unfold validate_response; rw [if_pos h]
    have hne : validate_response r n ≠ ("Valid".toList) := by
      rw [hm]; simp
    exact ⟨⟨fun hv => absurd hv hne, fun hinf => absurd hinf h⟩, fun _ => ⟨hm, hne⟩⟩

/-- Witness for C4 at the spec's own examples: a response containing
`"Day 3"` validates, one missing it does not. -/
theorem claim_C4_witness :
    validate_response ("Day 1 a Day 2 b Day 3 c".toList) 3 = ("Valid".toList)
    ∧ validate_response ("Day 1 only".toList) 3 ≠ ("Valid".toList) := by
  constructor
  · exact (claim_C4 ("Day 1 a Day 2 b Day 3 c".toList) 3).1.mpr (by decide)
  · exact (((claim_C4 ("Day 1 only".toList) 3).2 (by decide)).2)

set_option maxRecDepth 40000 in
/-- Claim C5: the built prompt instructs an exactly-4-day itinerary iff the
character `4` occurs anywhere in the raw query, and an exactly-3-day one
otherwise; the chat loop's validation recomputes the same trip length. -/
theorem claim_C5 (q : Str) (ms : List Match) (fs : List GraphFact)
    (prefs : Option (List (Str × Str))) (fmtF fmt2 : ℚ → Str) :
    ((("exactly 4-day".toList) <:+: systemContentOf (build_prompt q ms fs prefs fmtF fmt2)) ↔ '4' ∈ q)
    ∧ ((("exactly 3-day".toList) <:+: systemContentOf (build_prompt q ms fs prefs fmtF fmt2)) ↔ ¬ ('4' ∈ q))
    ∧ cliTripLength q = tripLengthOf q
    ∧ tripLengthOf q = (if '4' ∈ q then 4 else 3) := by
  have hsys : systemContentOf (build_prompt q ms fs prefs fmtF fmt2)
      = (templateFor (templateNameOf (prefs.getD [])) (tripLengthOf q)).system
        ++ ' ' :: (templateFor (templateNameOf (prefs.getD [])) (tripLengthOf q)).suffix := rfl
  refine ⟨?_, ?_, rfl, rfl⟩ <;>
  · rw [hsys]
    rcases templateFor_cases (templateNameOf (prefs.getD [])) (tripLengthOf q) with h | h <;>
      rw [h] <;> by_cases h4 : '4' ∈ q <;>
        simp only [tripLengthOf, h4, if_true, if_false, iff_true, iff_false,
          not_true, not_false_iff, ite_true, ite_false] <;> decide

/-- Witness for C5 on the query of the spec's end-to-end scenario. -/
theorem claim_C5_witness :
    (("exactly 4-day".toList)
      <:+: systemContentOf (build_prompt ("Plan a 4-day romantic trip".toList) [] [] none fmtTrivial fmtTrivial))
    ∧ cliTripLength ("Plan a 4-day romantic trip".toList) = 4 := by
  constructor
  · exact (claim_C5 ("Plan a 4-day romantic trip".toList) [] [] none fmtTrivial fmtTrivial).1.mpr
      (by decide)
  · have h := (claim_C5 ("Plan a 4-day romantic trip".toList) [] [] none fmtTrivial fmtTrivial).2.2
    rw [h.1, h.2]; decide

/-- Claim C9: the prompt builder always produces a two-turn system/user
prompt, and its system turn is built from exactly the template the spec
describes: the named one when the name is `concise` or `chain_of_thought`,
and `concise` when the key is missing, empty, or unknown. -/
theorem claim_C9 (q : Str) (ms : List Match) (fs : List GraphFact)
    (prefs : Option (List (Str × Str))) (fmtF fmt2 : ℚ → Str) :
    (build_prompt q ms fs prefs fmtF fmt2).map Turn.role = [("system".toList), ("user".toList)]
    ∧ (build_prompt q ms fs prefs fmtF fmt2).length = 2
    ∧ systemContentOf (build_prompt q ms fs prefs fmtF fmt2)
        = (templateFor (specTemplateChoice prefs) (tripLengthOf q)).system
          ++ ' ' :: (templateFor (specTemplateChoice prefs) (tripLengthOf q)).suffix := by
  refine ⟨rfl, rfl, ?_⟩
  suffices h : templateFor (templateNameOf (prefs.getD [])) (tripLengthOf q)
      = templateFor (specTemplateChoice prefs) (tripLengthOf q) by
    have hsys : systemContentOf (build_prompt q ms fs prefs fmtF fmt2)
        = (templateFor (templateNameOf (prefs.getD [])) (tripLengthOf q)).system
          ++ ' ' :: (templateFor (templateNameOf (prefs.getD [])) (tripLengthOf q)).suffix := rfl
    rw [hsys, h]
  unfold templateNameOf specTemplateChoice
  cases hd : dictGet (prefs.getD []) ("template".toList) with
  | none => rfl
  | some t =>
    dsimp only
    by_cases h1 : t = ("concise".toList)
    · subst h1; rw [ite_self, ite_self]
    · by_cases h2 : t = ("chain_of_thought".toList)
      · subst h2; rw [if_neg (by decide), if_pos (Or.inr rfl)]
      · by_cases h0 : t = []
        · subst h0; rw [if_pos rfl, if_neg (by decide)]
        · rw [if_neg h0, if_neg (not_or.mpr ⟨h1, h2⟩)]
          unfold templateFor
          rw [if_neg h1, if_neg h2, if_pos rfl]

/-- Witness for C9 with an unknown template name falling back to concise. -/
theorem claim_C9_witness :
    systemContentOf (build_prompt ("hi".toList) [] []
        (some [(("template".toList), ("verbose".toList))]) fmtTrivial fmtTrivial)
      = (conciseTemplate 3).system ++ ' ' :: (conciseTemplate 3).suffix := by
  have h := (claim_C9 ("hi".toList) [] []
    (some [(("template".toList), ("verbose".toList))]) fmtTrivial fmtTrivial).2.2
  rw [h]; rfl

/-- Claim C3: per query, the chat loop issues the first completion call with
budget 1100; exactly when validation of the first answer fails it issues one
retry whose prompt is the original prompt plus one appended user follow-up
turn and whose budget 1200 is strictly larger; otherwise there is no second
call; never more than two calls. -/
theorem claim_C3 (oracle : List Turn → Nat → Str) (q : Str) (ms : List Match)
    (fs : List GraphFact) (prefs : Option (List (Str × Str))) (fmtF fmt2 : ℚ → Str) :
    (validate_response (oracle (build_prompt q ms fs prefs fmtF fmt2) 1100) (cliTripLength q)
        ≠ ("Valid".toList) →
      (interactive_chat_step oracle q ms fs prefs fmtF fmt2).2
        = [⟨build_prompt q ms fs prefs fmtF fmt2, 1100⟩,
           ⟨build_prompt q ms fs prefs fmtF fmt2 ++ [followupTurn], 1200⟩])
    ∧ (validate_response (oracle (build_prompt q ms fs prefs fmtF fmt2) 1100) (cliTripLength q)
        = ("Valid".toList) →
      (interactive_chat_step oracle q ms fs prefs fmtF fmt2).2
        = [⟨build_prompt q ms fs prefs fmtF fmt2, 1100⟩])
    ∧ (interactive_chat_step oracle q ms fs prefs fmtF fmt2).2.length ≤ 2
    ∧ (∀ c1 c2, (interactive_chat_step oracle q ms fs prefs fmtF fmt2).2 = [c1, c2] →
        c1.max_tokens < c2.max_tokens) := by
  by_cases h : validate_response (oracle (build_prompt q ms fs prefs fmtF fmt2) 1100)
      (cliTripLength q) = ("Valid".toList)
  · have hstep : (interactive_chat_step oracle q ms fs prefs fmtF fmt2).2
        = [⟨build_prompt q ms fs prefs fmtF fmt2, 1100⟩] := by
      unfold interactive_chat_step
      rw [if_neg (not_not_intro h)]
    refine ⟨fun hc => absurd h hc, fun _ => hstep, by rw [hstep]; simp, ?_⟩
    intro c1 c2 hcc
    rw [hstep] at hcc
    exact absurd hcc (by simp)
  · have hstep : (interactive_chat_step oracle q ms fs prefs fmtF fmt2).2
        = [⟨build_prompt q ms fs prefs fmtF fmt2, 1100⟩,
           ⟨build_prompt q ms fs prefs fmtF fmt2 ++ [followupTurn], 1200⟩] := by
      unfold interactive_chat_step
      rw [if_pos h]
    refine ⟨fun _ => hstep, fun hc => absurd hc h, by rw [hstep]; simp, ?_⟩
    intro c1 c2 hcc
    rw [hstep] at hcc
    have h1 : c1 = ⟨build_prompt q ms fs prefs fmtF fmt2, 1100⟩ := by
      have := congrArg (fun l => l.head?) hcc
      simpa using this.symm
    have h2 : c2 = ⟨build_prompt q ms fs prefs fmtF fmt2 ++ [followupTurn], 1200⟩ := by
      have := congrArg (fun l => l.getLast?) hcc
      simpa using this.symm
    rw [h1, h2]
    change (1100 : Nat) < 1200
    omega

/-- A falsy id leaves the meta dict unchanged. -/
theorem dictStepM_falsy (d : Str → Option Meta) (m : Match)
    (h : truthyOptStr m.id = false) : dictStepM d m = d := by
  unfold dictStepM
  cases hid : m.id with
  | none => rfl
  | some i =>
    rw [hid] at h
    unfold truthyOptStr at h
    simp at h
    simp [h]

/-- A falsy target id leaves the fact dict unchanged. -/
theorem dictStepF_falsy (d : Str → Option GraphFact) (f : GraphFact)
    (h : truthyOptStr f.target_id = false) : dictStepF d f = d := by
  unfold dictStepF
  cases hid : f.target_id with
  | none => rfl
  | some i =>
    rw [hid] at h
    unfold truthyOptStr at h
    simp at h
    simp [h]

theorem metaById_eq_of_falsy (ms : List Match)
    (h : ∀ m ∈ ms, truthyOptStr m.id = false) : metaById ms = fun _ => none := by
  unfold metaById
  suffices H : ∀ d : Str → Option Meta, List.foldl dictStepM d ms = d from H _
  induction ms with
  | nil => intro d; rfl
  | cons m tl ih =>
    intro d
    rw [List.foldl_cons, dictStepM_falsy d m (h m (List.mem_cons_self m tl))]
    exact ih (fun x hx => h x (List.mem_cons_of_mem m hx)) d

theorem factById_eq_of_falsy (fs : List GraphFact)
    (h : ∀ f ∈ fs, truthyOptStr f.target_id = false) : factById fs = fun _ => none := by
  unfold factById
  suffices H : ∀ d : Str → Option GraphFact, List.foldl dictStepF d fs = d from H _
  induction fs with
  | nil => intro d; rfl
  | cons f tl ih =>
    intro d
    rw [List.foldl_cons, dictStepF_falsy d f (h f (List.mem_cons_self f tl))]
    exact ih (fun x hx => h x (List.mem_cons_of_mem f hx)) d

/-- One unfolding of the citation scan at an opening bracket with a split. -/
theorem expandScan_cons_split (ms : List Match) (fs : List GraphFact)
    (rest content after : Str) (x : { p : Str × Str // rest = p.1 ++ ']' :: p.2 ∧ ']' ∉ p.1 })
    (hx : x.val = (content, after))
    (hsp : splitAtClose ']' rest = some x) :
    expandScan ms fs ('[' :: rest)
      = if content ≠ [] then replPlaceholder ms fs content ++ expandScan ms fs after
        else '[' :: expandScan ms fs rest := by
  obtain ⟨⟨c1, c2⟩, hpv1, hpv2⟩ := x
  rw [Prod.mk.injEq] at hx
  obtain ⟨h1, h2⟩ := hx
  subst h1; subst h2
  conv_lhs => rw [expandScan.eq_def]
  split
  next heq => exact absurd heq (by simp)
  next c3 rest3 heq =>
    obtain ⟨h1, h2⟩ := List.cons.inj heq
    subst h1; subst h2
    rw [if_pos rfl, hsp]

/-- One unfolding of the citation scan at an opening bracket with no closing
bracket. -/
theorem expandScan_cons_nosplit (ms : List Match) (fs : List GraphFact) (rest : Str)
    (hsp : splitAtClose ']' rest = none) :
    expandScan ms fs ('[' :: rest) = '[' :: expandScan ms fs rest := by
  conv_lhs => rw [expandScan.eq_def]
  split
  next heq => exact absurd heq (by simp)
  next c2 rest2 heq =>
    obtain ⟨h1, h2⟩ := List.cons.inj heq
    subst h1; subst h2
    rw [if_pos rfl, hsp]

/-- One unfolding of the citation scan at an ordinary character. -/
theorem expandScan_cons_other (ms : List Match) (fs : List GraphFact) (c : Char) (rest : Str)
    (hc : ¬ c = '[') :
    expandScan ms fs (c :: rest) = c :: expandScan ms fs rest := by
  conv_lhs => rw [expandScan.eq_def]
  split
  next heq => exact absurd heq (by simp)
  next c2 rest2 heq =>
    obtain ⟨h1, h2⟩ := List.cons.inj heq
    subst h1; subst h2
    rw [if_neg hc]

theorem expandScan_nil (ms : List Match) (fs : List GraphFact) :
    expandScan ms fs [] = [] := by
  conv_lhs => rw [expandScan.eq_def]

/-- With empty lookup dicts, the citation scan is the identity. -/
theorem expandScan_id (ms : List Match) (fs : List GraphFact)
    (hm : metaById ms = fun _ => none) (hf : factById fs = fun _ => none) (s : Str) :
    expandScan ms fs s = s := by
  refine expandScan.induct ms fs (fun s => expandScan ms fs s = s) ?_ ?_ ?_ ?_ ?_ s
  · exact expandScan_nil ms fs
  · intro content after hnot hne hsp ih
    dsimp only at hsp ⊢
    rw [expandScan_cons_split ms fs _ content after _ rfl hsp, if_pos hne, ih]
    simp [replPlaceholder, hm, hf]
  · intro content after hnot hne hsp ih
    dsimp only at hsp ih ⊢
    rw [expandScan_cons_split ms fs _ content after _ rfl hsp, if_neg hne, ih]
  · intro cs hsp ih
    rw [expandScan_cons_nosplit ms fs cs hsp, ih]
  · intro c cs hc ih
    rw [expandScan_cons_other ms fs c cs hc, ih]

/-- Claim C10: with `None`, empty, or entirely falsy-id inputs the citation
expander is the identity on the response text; matches without an id and
graph facts without a target id never contribute to lookup. -/
theorem claim_C10 (resp : Str) (ms : List Match) (fs : List GraphFact)
    (hm : ∀ m ∈ ms, truthyOptStr m.id = false)
    (hf : ∀ f ∈ fs, truthyOptStr f.target_id = false) :
    expand_citations resp (some ms) (some fs) = resp
    ∧ expand_citations resp none none = resp
    ∧ expand_citations resp (some []) (some []) = resp :=
  ⟨expandScan_id ms fs (metaById_eq_of_falsy ms hm) (factById_eq_of_falsy fs hf) resp,
   expandScan_id [] [] rfl rfl resp,
   expandScan_id [] [] rfl rfl resp⟩

/-- Witness for C10 on a response with two placeholders, one id-less match
and one empty-id graph fact. -/
theorem claim_C10_witness :
    expand_citations ("see [x] and [node_id: y]".toList)
        (some [⟨none, none, none⟩, ⟨some [], none, none⟩])
        (some [⟨none, none, some [], none, [], none⟩]) = ("see [x] and [node_id: y]".toList) :=
  (claim_C10 ("see [x] and [node_id: y]".toList)
    [⟨none, none, none⟩, ⟨some [], none, none⟩]
    [⟨none, none, some [], none, [], none⟩] (by decide) (by decide)).1

/-- `splitAtClose` recovers an explicit decomposition. -/
theorem splitAtClose_app (close : Char) (a b : Str) (h : close ∉ a) :
    (splitAtClose close (a ++ close :: b)).map Subtype.val = some (a, b) := by
  induction a with
  | nil =>
    simp [splitAtClose]
  | cons c a' ih =>
    have hc : ¬ c = close := fun hh => h (hh ▸ List.mem_cons_self c a')
    have ihh := ih (fun hmem => h (List.mem_cons_of_mem c hmem))
    rw [show (c :: a') ++ close :: b = c :: (a' ++ close :: b) from rfl]
    rw [splitAtClose.eq_def]
    dsimp only
    rw [dif_neg hc]
    cases hsp : splitAtClose close (a' ++ close :: b) with
    | none => rw [hsp] at ihh; simp at ihh
    | some x =>
      obtain ⟨⟨p1, p2⟩, hpv1, hpv2⟩ := x
      rw [hsp] at ihh
      simp at ihh
      obtain ⟨h1, h2⟩ := ihh
      subst h1; subst h2
      simp

/-- The citation scan over an explicitly decomposed placeholder: the verbatim
part before the first bracket is copied, the placeholder is rewritten by
`repl`, and scanning resumes after the closing bracket. -/
theorem expandScan_append (ms : List Match) (fs : List GraphFact) (pre content suf : Str)
    (hpre : '[' ∉ pre) (hc : content ≠ []) (hcc : ']' ∉ content) :
    expandScan ms fs (pre ++ '[' :: (content ++ ']' :: suf))
      = pre ++ (replPlaceholder ms fs content ++ expandScan ms fs suf) := by
  induction pre with
  | nil =>
    cases hsp : splitAtClose ']' (content ++ ']' :: suf) with
    | none =>
      have hval := splitAtClose_app ']' content suf hcc
      rw [hsp] at hval
      simp at hval
    | some x =>
      have hval := splitAtClose_app ']' content suf hcc
      rw [hsp] at hval
      simp at hval
      rw [List.nil_append,
        expandScan_cons_split ms fs _ content suf x hval hsp, if_pos hc,
        List.nil_append]
  | cons c pre' ih =>
    have hcne : ¬ c = '[' := fun hh => hpre (hh ▸ List.mem_cons_self c pre')
    rw [List.cons_append, expandScan_cons_other ms fs c _ hcne,
      ih (fun hmem => hpre (List.mem_cons_of_mem c hmem))]
    rfl

/-- A successful lookup in `meta_by_id` comes from a member of the match list
with that id (the last such member, by dict overwrite semantics). -/
theorem metaById_lookup (ms : List Match) (k : Str) (meta : Meta)
    (h : metaById ms k = some meta) : ∃ m ∈ ms, m.id = some k ∧ metaOf m = meta := by
  unfold metaById at h
  suffices H : ∀ d : Str → Option Meta, List.foldl dictStepM d ms k = some meta →
      (∃ m ∈ ms, m.id = some k ∧ metaOf m = meta) ∨ d k = some meta by
    rcases H (fun _ => none) h with h1 | h1
    · exact h1
    · exact absurd h1 (by simp)
  clear h
  induction ms with
  | nil =>
    intro d h
    exact Or.inr h
  | cons m tl ih =>
    intro d h
    rw [List.foldl_cons] at h
    rcases ih (dictStepM d m) h with h1 | h1
    · obtain ⟨m', hmem, hrest⟩ := h1
      exact Or.inl ⟨m', List.mem_cons_of_mem m hmem, hrest⟩
    · cases hid : m.id with
      | none =>
        have hstep : dictStepM d m = d := by unfold dictStepM; rw [hid]
        rw [hstep] at h1
        exact Or.inr h1
      | some i =>
        by_cases hi : i = []
        · have hstep : dictStepM d m = d := by
            unfold dictStepM; rw [hid]; simp [hi]
          rw [hstep] at h1
          exact Or.inr h1
        · have hstep : dictStepM d m k = if k = i then some (metaOf m) else d k := by
            unfold dictStepM; rw [hid]; simp [hi]
          rw [hstep] at h1
          by_cases hk : k = i
          · left
            refine ⟨m, List.mem_cons_self m tl, ?_, ?_⟩
            · rw [hid, hk]
            · rw [if_pos hk] at h1
              exact Option.some.inj h1
          · rw [if_neg hk] at h1
            exact Or.inr h1

/-- Claim C2: when a placeholder's extracted identifier is a key of the match
dict, the expander rewrites exactly that placeholder to the found match's
type (joined, parenthesised tags appended when present — that is the
`renderMeta` format), and that key belongs to a match of the list; when the
identifier is in neither dict, the placeholder is reproduced character for
character.  `pre` is the placeholder-free text before the bracket and
`content` the bracket content up to the first closing bracket. -/
theorem claim_C2 (ms : List Match) (fs : List GraphFact) (pre content suf : Str)
    (hpre : '[' ∉ pre) (hc : content ≠ []) (hcc : ']' ∉ content) :
    (∀ meta, metaById ms (extractId (pyStrip content)) = some meta →
        expand_citations (pre ++ '[' :: (content ++ ']' :: suf)) (some ms) (some fs)
          = pre ++ renderMeta meta ++ expand_citations suf (some ms) (some fs)
        ∧ ∃ m ∈ ms, m.id = some (extractId (pyStrip content)) ∧ metaOf m = meta)
    ∧ (metaById ms (extractId (pyStrip content)) = none →
        factById fs (extractId (pyStrip content)) = none →
        expand_citations (pre ++ '[' :: (content ++ ']' :: suf)) (some ms) (some fs)
          = pre ++ '[' :: (content ++ ']' :: expand_citations suf (some ms) (some fs))) := by
  have hscan := expandScan_append ms fs pre content suf hpre hc hcc
  constructor
  · intro meta hmeta
    constructor
    · show expandScan ms fs (pre ++ '[' :: (content ++ ']' :: suf))
        = pre ++ renderMeta meta ++ expandScan ms fs suf
      rw [hscan]
      simp only [replPlaceholder]
      rw [hmeta]
      simp [List.append_assoc]
    · exact metaById_lookup ms (extractId (pyStrip content)) meta hmeta
  · intro hmeta hfact
    show expandScan ms fs (pre ++ '[' :: (content ++ ']' :: suf))
      = pre ++ '[' :: (content ++ ']' :: expandScan ms fs suf)
    rw [hscan]
    simp only [replPlaceholder]
    rw [hmeta, hfact]
    simp

unseal expandScan in
/-- Witness for C2: a matched placeholder is rewritten to the match's type
and tags; an unknown one is kept verbatim. -/
theorem claim_C2_witness :
    expand_citations ("go to [city_da_lat] now".toList)
        (some [⟨some ("city_da_lat".toList), none,
               some ⟨none, some ("City".toList), some [("romantic".toList)], none⟩⟩])
        (some [])
      = ("go to ".toList) ++ renderMeta ⟨none, some ("City".toList), some [("romantic".toList)], none⟩
        ++ (" now".toList)
    ∧ expand_citations ("go to [alpha] now".toList)
        (some [⟨some ("city_da_lat".toList), none,
               some ⟨none, some ("City".toList), some [("romantic".toList)], none⟩⟩])
        (some [])
      = ("go to [alpha] now".toList) := by
  constructor
  · have h := ((claim_C2 [⟨some ("city_da_lat".toList), none,
        some ⟨none, some ("City".toList), some [("romantic".toList)], none⟩⟩] []
        ("go to ".toList) ("city_da_lat".toList) (" now".toList)
        (by decide) (by decide) (by decide)).1
        ⟨none, some ("City".toList), some [("romantic".toList)], none⟩ (by decide)).1
    rw [show ("go to [city_da_lat] now".toList)
        = ("go to ".toList) ++ '[' :: (("city_da_lat".toList) ++ ']' :: (" now".toList)) from rfl] at *
    rw [h]
    rfl
  · have h := (claim_C2 [⟨some ("city_da_lat".toList), none,
        some ⟨none, some ("City".toList), some [("romantic".toList)], none⟩⟩] []
        ("go to ".toList) ("alpha".toList) (" now".toList)
        (by decide) (by decide) (by decide)).2 (by decide) (by decide)
    rw [show ("go to [alpha] now".toList)
        = ("go to ".toList) ++ '[' :: (("alpha".toList) ++ ']' :: (" now".toList)) from rfl] at *
    rw [h]
    rfl

/-- The first fact emitted for a record batch is always a 1-hop fact. -/
theorem flatten_head_source_none (recs : List NeoRecord) (f : GraphFact)
    (h : ((recs.map factsOfRecord).flatten).head? = some f) : f.source = none := by
  induction recs with
  | nil => simp at h
  | cons r rs _ =>
    rw [List.map_cons, List.flatten_cons,
      show factsOfRecord r
        = (⟨none, r.rel, r.id, r.name, (r.description.getD []).take 400, r.labels⟩ : GraphFact)
          :: (if truthyOptStr r.rel2 then
               [⟨r.id, r.rel2, r.id2, r.name2, (r.description2.getD []).take 400, r.labels2⟩]
             else []) from rfl,
      List.cons_append, List.head?_cons] at h
    rw [← Option.some.inj h]

/-- The emitted fact stream is well paired: a 2-hop fact directly follows the
1-hop fact it hangs off. -/
theorem flatten_chain (recs : List NeoRecord) :
    List.Chain' pairedRel ((recs.map factsOfRecord).flatten) := by
  induction recs with
  | nil => simp
  | cons r rs ih =>
    rw [List.map_cons, List.flatten_cons, List.chain'_append]
    refine ⟨?_, ih, ?_⟩
    · by_cases h2 : truthyOptStr r.rel2
      · rw [show factsOfRecord r
            = [(⟨none, r.rel, r.id, r.name, (r.description.getD []).take 400, r.labels⟩ : GraphFact),
               ⟨r.id, r.rel2, r.id2, r.name2, (r.description2.getD []).take 400, r.labels2⟩]
            from by unfold factsOfRecord; rw [if_pos h2]]
        refine List.chain'_cons.mpr ⟨?_, List.chain'_singleton _⟩
        intro s hs
        exact ⟨hs, rfl⟩
      · rw [show factsOfRecord r
            = [(⟨none, r.rel, r.id, r.name, (r.description.getD []).take 400, r.labels⟩ : GraphFact)]
            from by unfold factsOfRecord; rw [if_neg h2]]
        exact List.chain'_singleton _
    · intro x _ y hy s hs
      rw [flatten_head_source_none rs y hy] at hs
      cases hs

/-- Claim C7: `fetch_graph_context` returns at most 50 facts, every
description is at most 400 characters, every 2-hop fact (one with a non-null
source) appears immediately after a 1-hop fact whose target id equals its
source, and the list starts (when non-empty) with a 1-hop fact, i.e. one with
null source. -/
theorem claim_C7 (ids : List Str) (recs : List NeoRecord) :
    (fetch_graph_context ids recs).length ≤ 50
    ∧ (∀ f ∈ fetch_graph_context ids recs, f.target_desc.length ≤ 400)
    ∧ List.Chain' pairedRel (fetch_graph_context ids recs)
    ∧ (∀ f, (fetch_graph_context ids recs).head? = some f → f.source = none) := by
  refine ⟨ List.length_take_le 50 _, ?_, ?_, ?_⟩
  · intro f hf
    have hf' : f ∈ (recs.map factsOfRecord).flatten := List.mem_of_mem_take hf
    rw [List.mem_flatten] at hf'
    obtain ⟨chunk, hchunk, hfc⟩ := hf'
    rw [List.mem_map] at hchunk
    obtain ⟨r, -, rfl⟩ := hchunk
    unfold factsOfRecord at hfc
    rcases List.mem_cons.mp hfc with rfl | hfc2
    · exact List.length_take_le 400 _
    · by_cases h2 : truthyOptStr r.rel2
      · rw [if_pos h2] at hfc2
        rcases List.mem_singleton.mp hfc2 with rfl
        exact List.length_take_le 400 _
      · rw [if_neg h2] at hfc2
        cases hfc2
  · exact List.Chain'.prefix (flatten_chain recs) ( List.take_prefix 50 _)
  · intro f hf
    cases hfl : (recs.map factsOfRecord).flatten with
    | nil =>
      rw [show fetch_graph_context ids recs = [] from by
        unfold fetch_graph_context; rw [hfl]; rfl] at hf
      cases hf
    | cons x t =>
      rw [show fetch_graph_context ids recs = x :: t.take 49 from by
        unfold fetch_graph_context; rw [hfl]; rfl, List.head?_cons] at hf
      rw [← Option.some.inj hf]
      exact flatten_head_source_none recs x (by rw [hfl]; rfl)

/-- Witness for C7 on two records, the first with a 2-hop continuation, the
second with an over-long description. -/
theorem claim_C7_witness :
    (fetch_graph_context [("a".toList)]
        [⟨some ("NEAR".toList), some [("City".toList)], some ("m1".toList), some ("M1".toList),
          none, some ("d1".toList), some ("IN".toList), some [], some ("o1".toList),
          none, none, some ("d2".toList)⟩,
         ⟨some ("NEAR".toList), none, some ("m2".toList), none, none,
          some (List.replicate 500 'x'), none, none, none, none, none, none⟩]).length ≤ 50
    ∧ ∀ f ∈ (fetch_graph_context [("a".toList)]
        [⟨some ("NEAR".toList), some [("City".toList)], some ("m1".toList), some ("M1".toList),
          none, some ("d1".toList), some ("IN".toList), some [], some ("o1".toList),
          none, none, some ("d2".toList)⟩,
         ⟨some ("NEAR".toList), none, some ("m2".toList), none, none,
          some (List.replicate 500 'x'), none, none, none, none, none, none⟩]),
        f.target_desc.length ≤ 400 := by
  constructor
  · exact (claim_C7 [("a".toList)] _).1
  · exact (claim_C7 [("a".toList)] _).2.1

theorem scoreLe_trans : ∀ a b c : Match, scoreLe a b → scoreLe b c → scoreLe a c := by
  intro a b c hab hbc
  unfold scoreLe at *
  rw [decide_eq_true_iff] at *
  exact le_trans hbc hab

theorem scoreLe_total : ∀ a b : Match, scoreLe a b || scoreLe b a := by
  intro a b
  unfold scoreLe
  rw [Bool.or_eq_true, decide_eq_true_iff, decide_eq_true_iff]
  exact le_total _ _

/-- Claim C6: the summary has at most 5 vector snippets, rendered from a
selection that together with the unselected part is a permutation of the
input, is sorted by descending score, and dominates the unselected part; at
most 7 graph snippets, taken in fetch order with descriptions truncated to
120 characters; empty input yields the bare headers. -/
theorem claim_C6 (ms : List Match) (fs : List GraphFact) (fmt2 : ℚ → Str) :
    ∃ top rest : List Match,
      List.mergeSort ms scoreLe = top ++ rest
      ∧ top = (List.mergeSort ms scoreLe).take 5
      ∧ top.length ≤ 5
      ∧ search_summary fmt2 ms fs
          = ("Prioritized Vector matches:\n".toList) ++ joinNl (top.map (vecSnippet fmt2))
            ++ ("\n\nPrioritized Graph facts:\n".toList) ++ joinNl ((fs.take 7).map graphSnippet)
      ∧ (top ++ rest).Perm ms
      ∧ List.Pairwise (fun a b => (b.score.getD 0) ≤ (a.score.getD 0)) (top ++ rest)
      ∧ (∀ a ∈ top, ∀ b ∈ rest, (b.score.getD 0) ≤ (a.score.getD 0))
      ∧ (fs.take 7).length ≤ 7
      ∧ (∀ f ∈ fs.take 7, (f.target_desc.take 120).length ≤ 120)
      ∧ (ms = [] → fs = [] →
          search_summary fmt2 ms fs
            = ("Prioritized Vector matches:\n\n\nPrioritized Graph facts:\n".toList)) := by
  have hpw : List.Pairwise (fun a b : Match => (b.score.getD 0) ≤ (a.score.getD 0))
      ((List.mergeSort ms scoreLe).take 5 ++ (List.mergeSort ms scoreLe).drop 5) := by
    rw [List.take_append_drop]
    exact (List.sorted_mergeSort scoreLe_trans scoreLe_total ms).imp
      (fun hab => by
        unfold scoreLe at hab
        exact of_decide_eq_true hab)
  refine ⟨(List.mergeSort ms scoreLe).take 5, (List.mergeSort ms scoreLe).drop 5,
    (List.take_append_drop 5 _).symm, rfl, List.length_take_le 5 _, rfl, ?_, hpw, ?_,
    List.length_take_le 7 _, ?_, ?_⟩
  · rw [List.take_append_drop]
    exact List.mergeSort_perm ms scoreLe
  · exact (List.pairwise_append.mp hpw).2.2
  · intro f _
    exact List.length_take_le 120 _
  · intro hms hfs
    subst hms; subst hfs
    simp [search_summary, List.mergeSort_nil, joinNl]

/-- Witness for C6: empty inputs yield exactly the bare headers. -/
theorem claim_C6_witness :
    search_summary fmtTrivial [] []
      = ("Prioritized Vector matches:\n\n\nPrioritized Graph facts:\n".toList) := by
  obtain ⟨top, rest, h1, h2, h3, h4, h5, h6, h7, h8, h9, h10⟩ := claim_C6 [] [] fmtTrivial
  exact h10 rfl rfl

theorem sha256Bytes_length (msg : List Nat) : (sha256Bytes msg).length = 32 := rfl

theorem sha256Bytes_lt (msg : List Nat) : ∀ b ∈ sha256Bytes msg, b < 256 := by
  intro b hb
  unfold sha256Bytes at hb
  rw [List.flatMap] at hb
  rw [List.mem_flatten] at hb
  obtain ⟨l, hl, hbl⟩ := hb
  rw [List.mem_map] at hl
  obtain ⟨w, -, rfl⟩ := hl
  unfold wordBytes at hbl
  simp at hbl
  rcases hbl with h | h | h | h
  all_goals omega

theorem packBytes_lt (l : List Nat) (h : ∀ b ∈ l, b < 256) : packBytes l < 256 ^ l.length := by
  induction l with
  | nil => simp [packBytes]
  | cons b bs ih =>
    have hb := h b (List.mem_cons_self b bs)
    have hbs := ih (fun x hx => h x (List.mem_cons_of_mem b hx))
    unfold packBytes
    rw [List.length_cons, pow_succ]
    calc b + 256 * packBytes bs < 256 + 256 * packBytes bs := by omega
    _ ≤ 256 * (packBytes bs + 1) := by ring_nf; omega
    _ ≤ 256 ^ bs.length * 256 := by
        have : packBytes bs + 1 ≤ 256 ^ bs.length := hbs
        calc 256 * (packBytes bs + 1) ≤ 256 * 256 ^ bs.length := by
              exact Nat.mul_le_mul_left 256 this
        _ = 256 ^ bs.length * 256 := by ring

theorem packBytes_inj (l1 l2 : List Nat) (hlen : l1.length = l2.length)
    (h1 : ∀ b ∈ l1, b < 256) (h2 : ∀ b ∈ l2, b < 256)
    (heq : packBytes l1 = packBytes l2) : l1 = l2 := by
  induction l1 generalizing l2 with
  | nil =>
    cases l2 with
    | nil => rfl
    | cons b bs => simp at hlen
  | cons a as ih =>
    cases l2 with
    | nil => simp at hlen
    | cons b bs =>
      unfold packBytes at heq
      have ha := h1 a (List.mem_cons_self a as)
      have hb := h2 b (List.mem_cons_self b bs)
      have htail : packBytes as = packBytes bs := by omega
      have hhead : a = b := by omega
      rw [hhead, ih bs (by simpa using hlen)
        (fun x hx => h1 x (List.mem_cons_of_mem a hx))
        (fun x hx => h2 x (List.mem_cons_of_mem b hx)) htail]

/-- Counterexample for C8: the hashes are 64-hex-digit strings, so there are
finitely many of them while texts are unboundedly many; injectivity on all
distinct inputs is therefore impossible. -/
theorem claim_C8_counterexample :
    ¬ ∀ (t1 t2 : Str) (model : Option Str),
        t1 ≠ t2 → get_text_hash t1 model ≠ get_text_hash t2 model := by
  intro H
  have hb : ∀ n : ℕ, packBytes (sha256Bytes (utf8Bytes (List.replicate n 'a'))) < 256 ^ 32 := by
    intro n
    have h1 := packBytes_lt _ (sha256Bytes_lt (utf8Bytes (List.replicate n 'a')))
    rw [sha256Bytes_length] at h1
    exact h1
  obtain ⟨n, m, hnm, heq⟩ := Finite.exists_ne_map_eq_of_infinite
    (fun n : ℕ =>
      (⟨packBytes (sha256Bytes (utf8Bytes (List.replicate n 'a'))), hb n⟩ : Fin (256 ^ 32)))
  have hval := congrArg Fin.val heq
  simp only at hval
  have hbytes : sha256Bytes (utf8Bytes (List.replicate n 'a'))
      = sha256Bytes (utf8Bytes (List.replicate m 'a')) :=
    packBytes_inj _ _ (by rw [sha256Bytes_length, sha256Bytes_length])
      (sha256Bytes_lt _) (sha256Bytes_lt _) hval
  have hhash : get_text_hash (List.replicate n 'a') none
      = get_text_hash (List.replicate m 'a') none := by
    show hexdigest (sha256Bytes (utf8Bytes (List.replicate n 'a')))
      = hexdigest (sha256Bytes (utf8Bytes (List.replicate m 'a')))
    exact congrArg hexdigest hbytes
  have hrep : (List.replicate n 'a') ≠ (List.replicate m 'a') := by
    intro hEq
    apply hnm
    have := congrArg List.length hEq
    simpa using this
  exact H _ _ none hrep hhash

theorem hexdigest_length (bs : List Nat) : (hexdigest bs).length = 2 * bs.length := by
  induction bs with
  | nil => rfl
  | cons b t ih =>
    show (byteHex b ++ hexdigest t).length = 2 * (b :: t).length
    rw [List.length_append, ih]
    simp [byteHex]
    omega

theorem hexDigitChar_mem : ∀ x, x < 16 → hexDigitChar x ∈ ("0123456789abcdef".toList) := by
  decide

/-- Every character of a hex digest is a hex digit. -/
theorem hexdigest_hex (bs : List Nat) : ∀ c ∈ hexdigest bs, c ∈ ("0123456789abcdef".toList) := by
  intro c hc
  unfold hexdigest at hc
  rw [List.flatMap] at hc
  rw [List.mem_flatten] at hc
  obtain ⟨l, hl, hcl⟩ := hc
  rw [List.mem_map] at hl
  obtain ⟨b, -, rfl⟩ := hl
  unfold byteHex at hcl
  simp at hcl
  rcases hcl with h | h <;> (rw [h]; exact hexDigitChar_mem _ (Nat.mod_lt _ (by omega)))

set_option maxRecDepth 1000000 in
unseal chunks64 in
/-- Amended C8: `get_text_hash` is deterministic, always yields a 64-character
hex string, and the repository's own representative sample pair (`hello` vs
`world`, as in tests/test_embed.py) hashes differently; full injectivity on
all distinct texts is impossible (see the counterexample). -/
theorem claim_C8_amended :
    (∀ (t1 t2 : Str) (m : Option Str), t1 = t2 → get_text_hash t1 m = get_text_hash t2 m)
    ∧ (∀ (t : Str) (m : Option Str), (get_text_hash t m).length = 64
        ∧ ∀ c ∈ get_text_hash t m, c ∈ ("0123456789abcdef".toList))
    ∧ get_text_hash ("hello".toList) none ≠ get_text_hash ("world".toList) none := by
  refine ⟨fun t1 t2 m h => by rw [h], fun t m => ⟨?_, ?_⟩, by decide⟩
  · cases m with
    | none =>
      show (hexdigest (sha256Bytes (utf8Bytes t))).length = 64
      rw [hexdigest_length, sha256Bytes_length]
    | some mm =>
      show (hexdigest (sha256Bytes (utf8Bytes (mm ++ ':' :: t)))).length = 64
      rw [hexdigest_length, sha256Bytes_length]
  · cases m with
    | none => exact hexdigest_hex _
    | some mm => exact hexdigest_hex _

/-- Witness for C8's amended statement at a concrete text and model. -/
theorem claim_C8_amended_witness :
    get_text_hash ("hello".toList) (some ("m".toList))
      = get_text_hash ("hello".toList) (some ("m".toList))
    ∧ (get_text_hash ("hello".toList) (some ("m".toList))).length = 64 := by
  exact ⟨claim_C8_amended.1 ("hello".toList) ("hello".toList) (some ("m".toList)) rfl,
    (claim_C8_amended.2.1 ("hello".toList) (some ("m".toList))).1⟩

/-- Witness for C3: the spec's end-to-end scenario, a 4-day query whose first
synthetic answer lacks `"Day 4"`, yields exactly two calls with budgets 1100
then 1200. -/
theorem claim_C3_witness :
    (interactive_chat_step oracleIncomplete ("Plan a 4-day romantic trip".toList) [] [] none
        fmtTrivial fmtTrivial).2
      = [⟨build_prompt ("Plan a 4-day romantic trip".toList) [] [] none fmtTrivial fmtTrivial, 1100⟩,
         ⟨build_prompt ("Plan a 4-day romantic trip".toList) [] [] none fmtTrivial fmtTrivial
           ++ [followupTurn], 1200⟩] := by
  exact (claim_C3 oracleIncomplete ("Plan a 4-day romantic trip".toList) [] [] none
    fmtTrivial fmtTrivial).1 (by decide)

unseal rsScore rmNodeId collapseSpaces splitlines in
/-- Counterexample for C1: removing one `score:` token can splice together a
new one, so a second sanitizer pass can differ from the first.  On
`"scorscore: 1.2e: 3.4"` the first pass yields `"score: 3.4"` and the second
pass erases it. -/
theorem claim_C1_counterexample :
    ¬ (sanitize_answer (sanitize_answer ("scorscore: 1.2e: 3.4".toList))
        = sanitize_answer ("scorscore: 1.2e: 3.4".toList)) := by
  decide

theorem collapseSpaces_nil : collapseSpaces [] = [] := by
  conv_lhs => rw [collapseSpaces.eq_def]

theorem collapseSpaces_cons_space (cs : Str) :
    collapseSpaces (' ' :: cs) = ' ' :: collapseSpaces (cs.dropWhile (· = ' ')) := by
  conv_lhs => rw [collapseSpaces.eq_def]
  split
  next heq => exact absurd heq (by simp)
  next c2 cs2 heq =>
    obtain ⟨h1, h2⟩ := List.cons.inj heq
    subst h1; subst h2
    rw [if_pos rfl]

theorem collapseSpaces_cons_ne (c : Char) (cs : Str) (hc : ¬ c = ' ') :
    collapseSpaces (c :: cs) = c :: collapseSpaces cs := by
  conv_lhs => rw [collapseSpaces.eq_def]
  split
  next heq => exact absurd heq (by simp)
  next c2 cs2 heq =>
    obtain ⟨h1, h2⟩ := List.cons.inj heq
    subst h1; subst h2
    rw [if_neg hc]

theorem splitlines_nil : splitlines [] = [] := by
  conv_lhs => rw [splitlines.eq_def]

theorem breakTail_cons_ne (b : Char) (bs : Str) (hb : ¬ b = '\r') :
    breakTail (b :: bs) = bs := by
  unfold breakTail
  split
  next heq => exact absurd (List.cons.inj heq).1 hb
  next heq => exact (List.cons.inj heq).2.symm
  next heq => cases heq

theorem breakTail_r_not_n (d : Char) (ds : Str) (hd : ¬ d = '\n') :
    breakTail ('\r' :: d :: ds) = d :: ds := by
  unfold breakTail
  split
  next heq => exact absurd (List.cons.inj (List.cons.inj heq).2).1 hd
  next heq => exact (List.cons.inj heq).2.symm
  next heq => cases heq

theorem splitlines_cons_of_nil (s : Str) (hs : s ≠ [])
    (hr : s.dropWhile (fun ch => !isLineBreak ch) = []) :
    splitlines s = [s.takeWhile (fun ch => !isLineBreak ch)] := by
  cases s with
  | nil => exact absurd rfl hs
  | cons c cs =>
    conv_lhs => rw [splitlines.eq_def]
    split
    next heq => exact absurd heq (by simp)
    next c2 cs2 heq =>
      obtain ⟨h1, h2⟩ := List.cons.inj heq
      subst h1; subst h2
      split
      next => rfl
      next b2 bs2 heq2 =>
        rw [hr] at heq2
        cases heq2

theorem splitlines_cons (s : Str) (b : Char) (bs : Str)
    (hr : s.dropWhile (fun ch => !isLineBreak ch) = b :: bs) :
    splitlines s
      = s.takeWhile (fun ch => !isLineBreak ch) :: splitlines (breakTail (b :: bs)) := by
  cases s with
  | nil => simp at hr
  | cons c cs =>
    conv_lhs => rw [splitlines.eq_def]
    split
    next heq => exact absurd heq (by simp)
    next c2 cs2 heq =>
      obtain ⟨h1, h2⟩ := List.cons.inj heq
      subst h1; subst h2
      split
      next heq2 =>
        rw [hr] at heq2
        cases heq2
      next b2 bs2 heq2 =>
        rw [hr] at heq2
        obtain ⟨hb2, hbs2⟩ := List.cons.inj heq2
        subst hb2; subst hbs2
        by_cases hb : b = '\r'
        · subst hb
          rw [if_pos rfl]
          cases bs with
          | nil => rfl
          | cons d ds =>
            by_cases hd : d = '\n'
            · subst hd; rfl
            · split
              all_goals try rw [breakTail_r_not_n d ds hd]
              all_goals
                rename_i hdd hh
                exact absurd (List.cons.inj hdd).1 hd
        · rw [if_neg hb, breakTail_cons_ne b bs hb]

theorem collapseSpaces_head (t : Str) : (collapseSpaces t).head? = t.head? := by
  cases t with
  | nil => rw [collapseSpaces_nil]
  | cons c cs =>
    by_cases hc : c = ' '
    · subst hc; rw [collapseSpaces_cons_space]; rfl
    · rw [collapseSpaces_cons_ne c cs hc]; rfl

/-- The collapser's output never has two adjacent spaces. -/
theorem noTwoSpaces_collapse (s : Str) : noTwoSpaces (collapseSpaces s) := by
  refine collapseSpaces.induct (fun s => noTwoSpaces (collapseSpaces s)) ?_ ?_ ?_ s
  · show noTwoSpaces (collapseSpaces [])
    rw [collapseSpaces_nil]; exact List.chain'_nil
  · intro cs ih
    rw [collapseSpaces_cons_space]
    refine List.chain'_cons'.mpr ⟨?_, ih⟩
    intro y hy
    rw [Option.mem_def, collapseSpaces_head] at hy
    have h := List.head?_dropWhile_not (fun x => decide (x = ' ')) cs
    rw [hy] at h
    simp at h
    exact fun hcon => h hcon.2
  · intro c cs hc ih
    rw [collapseSpaces_cons_ne c cs hc]
    refine List.chain'_cons'.mpr ⟨?_, ih⟩
    intro y _
    exact fun hcon => hc hcon.1

/-- Strings without two adjacent spaces are fixpoints of the collapser. -/
theorem collapse_eq_self (s : Str) (h : noTwoSpaces s) : collapseSpaces s = s := by
  refine collapseSpaces.induct (fun s => noTwoSpaces s → collapseSpaces s = s) ?_ ?_ ?_ s h
  · intro _; exact collapseSpaces_nil
  · intro cs ih hchain
    rw [collapseSpaces_cons_space]
    have hda : cs.dropWhile (fun x => decide (x = ' ')) = cs := by
      cases cs with
      | nil => rfl
      | cons d ds =>
        have hr := (List.chain'_cons.mp hchain).1
        have hd : ¬ d = ' ' := fun hdd => hr ⟨rfl, hdd⟩
        rw [List.dropWhile_cons_of_neg (by simpa using hd)]
    have ih2 : collapseSpaces cs = cs := by
      have := ih (by rw [hda]; exact hchain.tail)
      rwa [hda] at this
    rw [show (cs.dropWhile fun x => x = ' ') = cs.dropWhile (fun x => decide (x = ' ')) from rfl,
      hda, ih2]
  · intro c cs hc ih hchain
    rw [collapseSpaces_cons_ne c cs hc, ih hchain.tail]

theorem breakTail_length (b : Char) (bs : Str) : (breakTail (b :: bs)).length ≤ bs.length := by
  unfold breakTail
  split
  next r heq =>
    obtain ⟨-, h2⟩ := List.cons.inj heq
    rw [h2]; simp
  next bs2 heq =>
    obtain ⟨-, h2⟩ := List.cons.inj heq
    rw [← h2]
  next heq => cases heq

theorem splitlines_ne_nil (s : Str) (hs : s ≠ []) : splitlines s ≠ [] := by
  cases hr : s.dropWhile (fun ch => !isLineBreak ch) with
  | nil => rw [splitlines_cons_of_nil s hs hr]; simp
  | cons b bs => rw [splitlines_cons s b bs hr]; simp

theorem splitlines_head (s : Str) (hs : s ≠ []) :
    ∃ t, splitlines s = s.takeWhile (fun ch => !isLineBreak ch) :: t := by
  cases hr : s.dropWhile (fun ch => !isLineBreak ch) with
  | nil => exact ⟨[], splitlines_cons_of_nil s hs hr⟩
  | cons b bs => exact ⟨_, splitlines_cons s b bs hr⟩

/-- Lines contain no line-break characters. -/
theorem mem_splitlines_no_break (s : Str) :
    ∀ l ∈ splitlines s, ∀ ch ∈ l, ¬ isLineBreak ch = true := by
  suffices H : ∀ n (s : Str), s.length ≤ n → ∀ l ∈ splitlines s, ∀ ch ∈ l, ¬ isLineBreak ch = true
    from H s.length s le_rfl
  intro n
  induction n with
  | zero =>
    intro s hlen l hl
    rw [List.length_eq_zero.mp (Nat.le_zero.mp hlen)] at hl
    rw [splitlines_nil] at hl
    cases hl
  | succ n ih =>
    intro s hlen l hl ch hch
    cases s with
    | nil => rw [splitlines_nil] at hl; cases hl
    | cons c cs =>
      cases hr : (c :: cs).dropWhile (fun ch => !isLineBreak ch) with
      | nil =>
        rw [splitlines_cons_of_nil (c :: cs) (by simp) hr] at hl
        rw [List.mem_singleton.mp hl] at hch
        simpa using List.mem_takeWhile_imp hch
      | cons b bs =>
        rw [splitlines_cons (c :: cs) b bs hr] at hl
        rcases List.mem_cons.mp hl with rfl | hl2
        · simpa using List.mem_takeWhile_imp hch
        · have hsuf : (b :: bs).length ≤ (c :: cs).length := by
            rw [← hr]
            exact (List.dropWhile_suffix _).length_le
          have hbt : (breakTail (b :: bs)).length ≤ n := by
            have := breakTail_length b bs
            simp at hsuf hlen
            omega
          exact ih (breakTail (b :: bs)) hbt l hl2 ch hch

/-- Every line is an infix of the split string. -/
theorem splitlines_mem_inf (s : Str) : ∀ l ∈ splitlines s, l <:+: s := by
  suffices H : ∀ n (s : Str), s.length ≤ n → ∀ l ∈ splitlines s, l <:+: s
    from H s.length s le_rfl
  intro n
  induction n with
  | zero =>
    intro s hlen l hl
    rw [List.length_eq_zero.mp (Nat.le_zero.mp hlen)] at hl ⊢
    rw [splitlines_nil] at hl
    cases hl
  | succ n ih =>
    intro s hlen l hl
    cases s with
    | nil => rw [splitlines_nil] at hl; cases hl
    | cons c cs =>
      cases hr : (c :: cs).dropWhile (fun ch => !isLineBreak ch) with
      | nil =>
        rw [splitlines_cons_of_nil (c :: cs) (by simp) hr] at hl
        rw [List.mem_singleton.mp hl]
        exact List.IsPrefix.isInfix ( List.takeWhile_prefix _)
      | cons b bs =>
        rw [splitlines_cons (c :: cs) b bs hr] at hl
        rcases List.mem_cons.mp hl with rfl | hl2
        · exact List.IsPrefix.isInfix ( List.takeWhile_prefix _)
        · have hsuf : (b :: bs) <:+ (c :: cs) := by
            rw [← hr]; exact List.dropWhile_suffix _
          have hbtsuf : breakTail (b :: bs) <:+ (c :: cs) := by
            refine List.IsSuffix.trans ?_ hsuf
            unfold breakTail
            split
            next r heq =>
              obtain ⟨h1, h2⟩ := List.cons.inj heq
              subst h1; subst h2
              exact ⟨['\r', '\n'], rfl⟩
            next bs2 heq =>
              obtain ⟨-, h2⟩ := List.cons.inj heq
              rw [← h2]
              exact ⟨[b], rfl⟩
            next heq => cases heq
          have hlen2 : (breakTail (b :: bs)).length ≤ n := by
            have h1 := breakTail_length b bs
            have h2 : (b :: bs).length ≤ (c :: cs).length := hsuf.length_le
            simp at h2 hlen
            omega
          exact List.IsInfix.trans (ih (breakTail (b :: bs)) hlen2 l hl2) hbtsuf.isInfix

theorem dropWhile_eq_self_of_head {α : Type} (p : α → Bool) (l : List α)
    (h : ∀ c, l.head? = some c → p c = false) : l.dropWhile p = l := by
  cases l with
  | nil => rfl
  | cons a t =>
    rw [List.dropWhile_cons_of_neg]
    simp [h a rfl]

theorem pyStrip_pref (u : Str) : pyStrip u <+: u.dropWhile isPySpace := by
  have h : ((u.dropWhile isPySpace).reverse.dropWhile isPySpace)
      <:+ (u.dropWhile isPySpace).reverse := List.dropWhile_suffix _
  have h2 := List.reverse_prefix.mpr h
  rwa [List.reverse_reverse] at h2

theorem pyStrip_inf (u : Str) : pyStrip u <:+: u :=
  List.IsInfix.trans (List.IsPrefix.isInfix (pyStrip_pref u))
    (List.IsSuffix.isInfix (List.dropWhile_suffix _))

theorem pref_head {α : Type} (v w : List α) (h : v <+: w) (hv : v ≠ []) :
    w.head? = v.head? := by
  obtain ⟨t, rfl⟩ := h
  cases v with
  | nil => exact absurd rfl hv
  | cons a v2 => rfl

theorem pyStrip_head_not_space (u : Str) :
    ∀ c, (pyStrip u).head? = some c → isPySpace c = false := by
  intro c h
  have hne : pyStrip u ≠ [] := by
    intro hh; rw [hh] at h; cases h
  have hh := pref_head (pyStrip u) (u.dropWhile isPySpace) (pyStrip_pref u) hne
  have h2 := List.head?_dropWhile_not isPySpace u
  rw [hh, h] at h2
  exact h2

theorem pyStrip_idem (u : Str) : pyStrip (pyStrip u) = pyStrip u := by
  have h1 : (pyStrip u).dropWhile isPySpace = pyStrip u :=
    dropWhile_eq_self_of_head isPySpace (pyStrip u) (pyStrip_head_not_space u)
  show (((pyStrip u).dropWhile isPySpace).reverse.dropWhile isPySpace).reverse = pyStrip u
  rw [h1]
  have h2 : (pyStrip u).reverse = (u.dropWhile isPySpace).reverse.dropWhile isPySpace :=
    List.reverse_reverse _
  rw [h2, List.dropWhile_idempotent]
  rfl

theorem pyStrip_getLast_ne_nl (u : Str) : ¬ (pyStrip u).getLast? = some '\n' := by
  intro h
  have hh : ((u.dropWhile isPySpace).reverse.dropWhile isPySpace).head? = some '\n' := by
    rw [← List.getLast?_reverse]
    exact h
  have h2 := List.head?_dropWhile_not isPySpace ((u.dropWhile isPySpace).reverse)
  rw [hh] at h2
  exact absurd h2 (by decide)

theorem joinNl_cons (a : Str) (ls : List Str) (h : ls ≠ []) :
    joinNl (a :: ls) = a ++ '\n' :: joinNl ls := by
  cases ls with
  | nil => exact absurd rfl h
  | cons b t => rfl

theorem mem_joinNl (ls : List Str) (c : Char) (hc : c ∈ joinNl ls) :
    c = '\n' ∨ ∃ l ∈ ls, c ∈ l := by
  induction ls with
  | nil => cases hc
  | cons a t ih =>
    by_cases ht : t = []
    · subst ht
      right
      exact ⟨a, by simp, hc⟩
    · rw [joinNl_cons a t ht] at hc
      rcases List.mem_append.mp hc with h | h
      · right; exact ⟨a, by simp, h⟩
      · rcases List.mem_cons.mp h with rfl | h2
        · left; rfl
        · rcases ih h2 with h3 | ⟨l, hl, hcl⟩
          · left; exact h3
          · right; exact ⟨l, by simp [hl], hcl⟩

theorem noTwoSpaces_joinNl (ls : List Str) (h : ∀ l ∈ ls, noTwoSpaces l) :
    noTwoSpaces (joinNl ls) := by
  induction ls with
  | nil => exact List.chain'_nil
  | cons a t ih =>
    by_cases ht : t = []
    · subst ht
      exact h a (by simp)
    · rw [joinNl_cons a t ht]
      refine List.chain'_append.mpr ⟨h a (by simp), ?_, ?_⟩
      · refine List.chain'_cons'.mpr ⟨?_, ih (fun l hl => h l (by simp [hl]))⟩
        intro y _
        exact fun hcon => absurd hcon.1 (by decide)
      · intro x _ y hy
        rw [Option.mem_def, List.head?_cons] at hy
        rw [← Option.some.inj hy]
        exact fun hcon => absurd hcon.2 (by decide)

/-- Lines of a newline-join of break-free lines are among those lines (or
empty). -/
theorem mem_splitlines_joinNl (ls : List Str)
    (hnb : ∀ l ∈ ls, ∀ ch ∈ l, ¬ isLineBreak ch = true) :
    ∀ l ∈ splitlines (joinNl ls), l ∈ ls ∨ l = [] := by
  induction ls with
  | nil =>
    intro l hl
    rw [show joinNl [] = [] from rfl, splitlines_nil] at hl
    cases hl
  | cons a t ih =>
    by_cases ht : t = []
    · subst ht
      intro l hl
      by_cases ha : a = []
      · subst ha
        rw [show joinNl [[]] = [] from rfl, splitlines_nil] at hl
        cases hl
      · have hr : a.dropWhile (fun ch => !isLineBreak ch) = [] := by
          rw [List.dropWhile_eq_nil_iff]
          intro x hx
          simpa using hnb a (by simp) x hx
        have htw : a.takeWhile (fun ch => !isLineBreak ch) = a := by
          rw [List.takeWhile_eq_self_iff]
          intro x hx
          simpa using hnb a (by simp) x hx
        rw [show joinNl [a] = a from rfl, splitlines_cons_of_nil a ha hr, htw] at hl
        left
        simpa using hl
    · intro l hl
      rw [joinNl_cons a t ht] at hl
      have hra : (a ++ '\n' :: joinNl t).dropWhile (fun ch => !isLineBreak ch)
          = '\n' :: joinNl t := by
        rw [List.dropWhile_append_of_pos (fun x hx => by simpa using hnb a (by simp) x hx),
          List.dropWhile_cons_of_neg (by decide)]
      have htwa : (a ++ '\n' :: joinNl t).takeWhile (fun ch => !isLineBreak ch) = a := by
        rw [List.takeWhile_append_of_pos (fun x hx => by simpa using hnb a (by simp) x hx),
          List.takeWhile_cons_of_neg (by decide), List.append_nil]
      rw [splitlines_cons _ '\n' (joinNl t) hra, htwa,
        breakTail_cons_ne '\n' _ (by decide)] at hl
      rcases List.mem_cons.mp hl with rfl | hl2
      · left; simp
      · rcases ih (fun l2 hl2m => hnb l2 (by simp [hl2m])) l hl2 with h | h
        · left; simp [h]
        · right; exact h

/-- Joining the split lines recovers the string, provided the only break
characters are `\n` and it does not end with one. -/
theorem joinNl_splitlines (u : Str) (honly : onlyNlBreaks u)
    (hlast : ¬ u.getLast? = some '\n') : joinNl (splitlines u) = u := by
  suffices H : ∀ n (u : Str), u.length ≤ n → onlyNlBreaks u →
      ¬ u.getLast? = some '\n' → joinNl (splitlines u) = u
    from H u.length u le_rfl honly hlast
  intro n
  induction n with
  | zero =>
    intro u hlen _ _
    have hu : u = [] := List.length_eq_zero.mp (Nat.le_zero.mp hlen)
    subst hu
    rw [splitlines_nil]
    rfl
  | succ n ih =>
    intro u hlen honly2 hlast2
    cases hu : u with
    | nil => rw [splitlines_nil]; rfl
    | cons c cs =>
      subst hu
      cases hr : (c :: cs).dropWhile (fun ch => !isLineBreak ch) with
      | nil =>
        rw [splitlines_cons_of_nil _ (by simp) hr]
        show (c :: cs).takeWhile (fun ch => !isLineBreak ch) = c :: cs
        have hsplit := List.takeWhile_append_dropWhile (fun ch => !isLineBreak ch) (c :: cs)
        rw [hr, List.append_nil] at hsplit
        exact hsplit
      | cons b bs =>
        have hbbreak : isLineBreak b = true := by
          have h2 := List.head?_dropWhile_not (fun ch => !isLineBreak ch) (c :: cs)
          rw [hr] at h2
          simpa using h2
        have hbn : b = '\n' := by
          refine honly2 b ?_ hbbreak
          have hsuf : List.dropWhile (fun ch => !isLineBreak ch) (c :: cs) <:+ c :: cs :=
            List.dropWhile_suffix _
          refine List.IsSuffix.subset hsuf ?_
          rw [hr]; simp
        subst hbn
        rw [splitlines_cons _ '\n' bs hr, breakTail_cons_ne '\n' bs (by decide)]
        have hu2 : (c :: cs).takeWhile (fun ch => !isLineBreak ch) ++ '\n' :: bs = c :: cs := by
          conv_rhs => rw [← List.takeWhile_append_dropWhile (fun ch => !isLineBreak ch) (c :: cs)]
          rw [hr]
        have hbs : bs ≠ [] := by
          intro hh
          subst hh
          apply hlast2
          rw [← hu2]
          exact List.getLast?_concat _
        rw [joinNl_cons _ _ (splitlines_ne_nil bs hbs)]
        have hlen2 : bs.length ≤ n := by
          have hsuf : ('\n' :: bs).length ≤ (c :: cs).length := by
            rw [← hr]
            exact (List.dropWhile_suffix _).length_le
          simp at hsuf hlen
          omega
        have honly3 : onlyNlBreaks bs := by
          intro x hx hbx
          have hsuf2 : List.dropWhile (fun ch => !isLineBreak ch) (c :: cs) <:+ c :: cs :=
            List.dropWhile_suffix _
          exact honly2 x (List.IsSuffix.subset hsuf2 (by rw [hr]; simp [hx])) hbx
        have hlast3 : ¬ bs.getLast? = some '\n' := by
          intro hh
          apply hlast2
          rw [← hu2, List.getLast?_append]
          cases hbs2 : bs with
          | nil => exact absurd hbs2 hbs
          | cons d ds =>
            rw [hbs2] at hh
            rw [List.getLast?_cons_cons, hh]
            rfl
        rw [ih bs hlen2 honly3 hlast3, hu2]

theorem keep_cons_ws (c : Char) (l : Str) (hc : isPySpace c = true) :
    keepLine (c :: l) = keepLine l := by
  simp only [keepLine, matchesNoteOrValidation, List.dropWhile_cons_of_pos hc]

theorem beginsWith_mono (pat : Str) :
    ∀ v w : Str, beginsWith pat v = true → v <+: w → beginsWith pat w = true := by
  induction pat with
  | nil => intro v w _ _; rfl
  | cons p ps ih =>
    intro v w hb hpref
    cases v with
    | nil => cases hb
    | cons c cs =>
      obtain ⟨t, rfl⟩ := hpref
      rw [List.cons_append]
      simp only [beginsWith, Bool.and_eq_true] at hb ⊢
      exact ⟨hb.1, ih cs (cs ++ t) hb.2 (List.prefix_append cs t)⟩

theorem dropWhile_pref_mono {α : Type} (p : α → Bool) (v w : List α) (h : v <+: w) :
    v.dropWhile p <+: w.dropWhile p := by
  obtain ⟨t, rfl⟩ := h
  rw [List.dropWhile_append]
  split
  next hemp =>
    simp only [List.isEmpty_iff] at hemp
    rw [hemp]
    exact List.nil_prefix
  next hemp =>
    exact List.prefix_append _ t

/-- A line that survives the `Note:`/`Validation:` filter has all its
prefixes survive too (the regex is anchored at the start). -/
theorem keepLine_of_pref (v w : Str) (hp : v <+: w) (hk : keepLine w = true) :
    keepLine v = true := by
  by_contra hv
  have hv2 : matchesNoteOrValidation v = true := by
    revert hv
    unfold keepLine
    cases matchesNoteOrValidation v <;> simp
  have hdw := dropWhile_pref_mono isPySpace v w hp
  have hw2 : matchesNoteOrValidation w = true := by
    unfold matchesNoteOrValidation at hv2 ⊢
    rw [Bool.or_eq_true] at hv2
    rcases hv2 with h | h
    · rw [beginsWith_mono _ _ _ h hdw]
      rfl
    · rw [beginsWith_mono _ _ _ h hdw]
      simp
  rw [keepLine, hw2] at hk
  cases hk

theorem pref_takeWhile {α : Type} (p : α → Bool) (v : List α) :
    ∀ u : List α, (∀ c ∈ v, p c = true) → v <+: u → v <+: u.takeWhile p := by
  induction v with
  | nil => intro u _ _; exact List.nil_prefix
  | cons c cs ih =>
    intro u hall hpref
    obtain ⟨t, rfl⟩ := hpref
    rw [List.cons_append, List.takeWhile_cons_of_pos (hall c (by simp))]
    obtain ⟨t2, ht2⟩ := ih (cs ++ t) (fun x hx => hall x (by simp [hx])) (List.prefix_append cs t)
    exact ⟨t2, by rw [List.cons_append, ht2]⟩

theorem breakTail_rn (r : Str) : breakTail ('\r' :: '\n' :: r) = r := rfl

theorem breakTail_pref (b : Char) (bs t : Str) :
    breakTail (b :: bs) <+: breakTail (b :: (bs ++ t)) := by
  by_cases hb : b = '\r'
  · subst hb
    cases bs with
    | nil =>
      rw [show breakTail ['\r'] = [] from rfl]
      exact List.nil_prefix
    | cons d ds =>
      by_cases hd : d = '\n'
      · subst hd
        rw [breakTail_rn, show ('\n' :: ds) ++ t = '\n' :: (ds ++ t) from rfl, breakTail_rn]
        exact List.prefix_append ds t
      · rw [breakTail_r_not_n d ds hd, show (d :: ds) ++ t = d :: (ds ++ t) from rfl,
          breakTail_r_not_n d (ds ++ t) hd]
        exact List.prefix_append (d :: ds) t
  · rw [breakTail_cons_ne b bs hb, breakTail_cons_ne b (bs ++ t) hb]
    exact List.prefix_append bs t

/-- Dropping one leading whitespace character preserves "all lines kept". -/
theorem keepAll_tail_of_ws (c : Char) (cs : Str) (hc : isPySpace c = true)
    (h : keepAllLines (c :: cs)) : keepAllLines cs := by
  by_cases hb : isLineBreak c = true
  · by_cases hr : c = '\r'
    · subst hr
      cases cs with
      | nil => intro l hl; rw [splitlines_nil] at hl; cases hl
      | cons d ds =>
        by_cases hd : d = '\n'
        · subst hd
          have h1 : splitlines ('\r' :: '\n' :: ds) = [] :: splitlines ds := by
            rw [splitlines_cons _ '\r' ('\n' :: ds)
                (by rw [List.dropWhile_cons_of_neg (by decide)]),
              List.takeWhile_cons_of_neg (by decide), breakTail_rn]
          have h2 : splitlines ('\n' :: ds) = [] :: splitlines ds := by
            rw [splitlines_cons _ '\n' ds (by rw [List.dropWhile_cons_of_neg (by decide)]),
              List.takeWhile_cons_of_neg (by decide), breakTail_cons_ne '\n' ds (by decide)]
          intro l hl
          rw [h2] at hl
          rcases List.mem_cons.mp hl with rfl | hl2
          · decide
          · exact h _ (by rw [h1]; exact List.mem_cons_of_mem _ hl2)
        · have h1 : splitlines ('\r' :: d :: ds) = [] :: splitlines (d :: ds) := by
            rw [splitlines_cons _ '\r' (d :: ds)
                (by rw [List.dropWhile_cons_of_neg (by decide)]),
              List.takeWhile_cons_of_neg (by decide), breakTail_r_not_n d ds hd]
          intro l hl
          exact h l (by rw [h1]; exact List.mem_cons_of_mem _ hl)
    · have h1 : splitlines (c :: cs) = [] :: splitlines cs := by
        rw [splitlines_cons _ c cs (by rw [List.dropWhile_cons_of_neg (by simp [hb])]),
          List.takeWhile_cons_of_neg (by simp [hb]), breakTail_cons_ne c cs hr]
      intro l hl
      exact h l (by rw [h1]; exact List.mem_cons_of_mem _ hl)
  · have hp : (fun ch => !isLineBreak ch) c = true := by simp [hb]
    cases hrcs : cs.dropWhile (fun ch => !isLineBreak ch) with
    | nil =>
      cases cs with
      | nil => intro l hl; rw [splitlines_nil] at hl; cases hl
      | cons e es =>
        have htkw : (e :: es).takeWhile (fun ch => !isLineBreak ch) = e :: es := by
          have h3 := List.takeWhile_append_dropWhile (fun ch => !isLineBreak ch) (e :: es)
          rw [hrcs, List.append_nil] at h3
          exact h3
        have hdc : List.dropWhile (fun ch => !isLineBreak ch) (c :: e :: es)
            = List.dropWhile (fun ch => !isLineBreak ch) (e :: es) :=
          List.dropWhile_cons_of_pos hp
        have htc : List.takeWhile (fun ch => !isLineBreak ch) (c :: e :: es)
            = c :: List.takeWhile (fun ch => !isLineBreak ch) (e :: es) :=
          List.takeWhile_cons_of_pos hp
        have h1 : splitlines (c :: e :: es) = [c :: e :: es] := by
          rw [splitlines_cons_of_nil _ (by simp) (by rw [hdc, hrcs]), htc, htkw]
        intro l hl
        rw [splitlines_cons_of_nil _ (by simp) hrcs, htkw] at hl
        rcases List.mem_cons.mp hl with rfl | hl2
        · have hk := h (c :: e :: es) (by rw [h1]; simp)
          rw [keep_cons_ws c _ hc] at hk
          exact hk
        · cases hl2
    | cons b bs =>
      have h1 : splitlines (c :: cs)
          = (c :: cs.takeWhile (fun ch => !isLineBreak ch))
            :: splitlines (breakTail (b :: bs)) := by
        have hdc : List.dropWhile (fun ch => !isLineBreak ch) (c :: cs)
            = List.dropWhile (fun ch => !isLineBreak ch) cs :=
          List.dropWhile_cons_of_pos hp
        have htc : List.takeWhile (fun ch => !isLineBreak ch) (c :: cs)
            = c :: List.takeWhile (fun ch => !isLineBreak ch) cs :=
          List.takeWhile_cons_of_pos hp
        rw [splitlines_cons _ b bs (by rw [hdc, hrcs]), htc]
      have h2 : splitlines cs
          = cs.takeWhile (fun ch => !isLineBreak ch) :: splitlines (breakTail (b :: bs)) :=
        splitlines_cons cs b bs hrcs
      intro l hl
      rw [h2] at hl
      rcases List.mem_cons.mp hl with rfl | hl2
      · have hk := h _ (by rw [h1]; exact List.mem_cons_self _ _)
        rw [keep_cons_ws c _ hc] at hk
        exact hk
      · exact h l (by rw [h1]; exact List.mem_cons_of_mem _ hl2)

theorem keepAll_dropWhile (u : Str) (h : keepAllLines u) :
    keepAllLines (u.dropWhile isPySpace) := by
  induction u with
  | nil => simpa using h
  | cons c cs ih =>
    by_cases hc : isPySpace c = true
    · rw [List.dropWhile_cons_of_pos hc]
      exact ih (keepAll_tail_of_ws c cs hc h)
    · rw [List.dropWhile_cons_of_neg (by simp [hc])]
      exact h

/-- Every line of a prefix of a string extends to (a prefix of) a line of
the string itself. -/
theorem splitlines_pref_lines (v u : Str) (hpref : v <+: u) :
    ∀ l ∈ splitlines v, ∃ l2 ∈ splitlines u, l <+: l2 := by
  suffices H : ∀ n (v u : Str), v.length ≤ n → v <+: u →
      ∀ l ∈ splitlines v, ∃ l2 ∈ splitlines u, l <+: l2
    from H v.length v u le_rfl hpref
  intro n
  induction n with
  | zero =>
    intro v u hlen _ l hl
    have hv : v = [] := List.length_eq_zero.mp (Nat.le_zero.mp hlen)
    subst hv
    rw [splitlines_nil] at hl
    cases hl
  | succ n ih =>
    intro v u hlen hpref2 l hl
    cases hv : v with
    | nil =>
      subst hv
      rw [splitlines_nil] at hl
      cases hl
    | cons c cs =>
      subst hv
      obtain ⟨t, rfl⟩ := hpref2
      cases hr : (c :: cs).dropWhile (fun ch => !isLineBreak ch) with
      | nil =>
        have htkw : (c :: cs).takeWhile (fun ch => !isLineBreak ch) = c :: cs := by
          have h3 := List.takeWhile_append_dropWhile (fun ch => !isLineBreak ch) (c :: cs)
          rw [hr, List.append_nil] at h3
          exact h3
        rw [splitlines_cons_of_nil _ (by simp) hr, htkw] at hl
        rcases List.mem_cons.mp hl with rfl | h2
        · have hall : ∀ x ∈ (c :: cs), (fun ch => !isLineBreak ch) x = true :=
            fun x hx => List.dropWhile_eq_nil_iff.mp hr x hx
          have hu_ne : (c :: cs) ++ t ≠ [] := by simp
          obtain ⟨tl, htl⟩ := splitlines_head ((c :: cs) ++ t) hu_ne
          refine ⟨((c :: cs) ++ t).takeWhile (fun ch => !isLineBreak ch),
            by rw [htl]; simp, ?_⟩
          exact pref_takeWhile _ (c :: cs) ((c :: cs) ++ t) hall (List.prefix_append _ t)
        · cases h2
      | cons b bs =>
        have hvsplit : c :: cs
            = (c :: cs).takeWhile (fun ch => !isLineBreak ch) ++ b :: bs := by
          conv_lhs =>
            rw [← List.takeWhile_append_dropWhile (fun ch => !isLineBreak ch) (c :: cs)]
          rw [hr]
        have hall_tk : ∀ x ∈ (c :: cs).takeWhile (fun ch => !isLineBreak ch),
            (fun ch => !isLineBreak ch) x = true := by
          intro x hx
          have h9 := List.mem_takeWhile_imp hx
          exact h9
        have hbfalse : (fun ch => !isLineBreak ch) b = false := by
          have h2 := List.head?_dropWhile_not (fun ch => !isLineBreak ch) (c :: cs)
          rw [hr] at h2
          simpa using h2
        have hru : ((c :: cs) ++ t).dropWhile (fun ch => !isLineBreak ch)
            = b :: (bs ++ t) := by
          conv_lhs => rw [hvsplit, List.append_assoc]
          rw [List.dropWhile_append_of_pos hall_tk, List.cons_append,
            List.dropWhile_cons_of_neg (by simp [hbfalse])]
        have hbn : ¬ ((fun ch => !isLineBreak ch) b = true) := by
          rw [hbfalse]
          simp
        have htcb : List.takeWhile (fun ch => !isLineBreak ch) (b :: (bs ++ t)) = [] :=
          List.takeWhile_cons_of_neg hbn
        have htku : ((c :: cs) ++ t).takeWhile (fun ch => !isLineBreak ch)
            = (c :: cs).takeWhile (fun ch => !isLineBreak ch) := by
          conv_lhs =>
            rw [hvsplit, List.append_assoc, List.takeWhile_append_of_pos hall_tk,
              List.cons_append, htcb, List.append_nil]
        rw [splitlines_cons _ b bs hr] at hl
        have husplit := splitlines_cons ((c :: cs) ++ t) b (bs ++ t) hru
        rcases List.mem_cons.mp hl with rfl | h2
        · exact ⟨(c :: cs).takeWhile (fun ch => !isLineBreak ch),
            by rw [husplit, htku]; simp, List.prefix_refl _⟩
        · have hlen2 : (breakTail (b :: bs)).length ≤ n := by
            have h3 := breakTail_length b bs
            have h5 : (b :: bs).length ≤ (c :: cs).length := by
              rw [← hr]
              exact (List.dropWhile_suffix _).length_le
            simp at h5 hlen
            omega
          obtain ⟨l2, hl2, hpl2⟩ := ih (breakTail (b :: bs)) (breakTail (b :: (bs ++ t)))
            hlen2 (breakTail_pref b bs t) l h2
          exact ⟨l2, by rw [husplit]; exact List.mem_cons_of_mem _ hl2, hpl2⟩

theorem keepAll_of_pref (v u : Str) (hpref : v <+: u) (h : keepAllLines u) :
    keepAllLines v := by
  intro l hl
  obtain ⟨l2, hl2, hp⟩ := splitlines_pref_lines v u hpref l hl
  exact keepLine_of_pref l l2 hp (h l2 hl2)

theorem keepAll_pyStrip (u : Str) (h : keepAllLines u) : keepAllLines (pyStrip u) :=
  keepAll_of_pref _ _ (pyStrip_pref u) (keepAll_dropWhile u h)

/-- The tail of the sanitizer (space collapsing, line filtering, stripping)
is idempotent: its image consists of fixpoints. -/
theorem sanitizeTail_idem (z : Str) : sanitizeTail (sanitizeTail z) = sanitizeTail z := by
  have hmain : ∀ ks : List Str,
      (∀ k ∈ ks, ∀ ch ∈ k, ¬ isLineBreak ch = true) →
      (∀ k ∈ ks, keepLine k = true) →
      (∀ k ∈ ks, noTwoSpaces k) →
      sanitizeTail (pyStrip (joinNl ks)) = pyStrip (joinNl ks) := by
    intro ks hnb hkeep hsp
    have hw_sp : noTwoSpaces (joinNl ks) := noTwoSpaces_joinNl ks hsp
    have hw_only : onlyNlBreaks (joinNl ks) := by
      intro ch hch hbr
      rcases mem_joinNl ks ch hch with h | ⟨k, hk, hck⟩
      · exact h
      · exact absurd hbr (hnb k hk ch hck)
    have hw_keep : keepAllLines (joinNl ks) := by
      intro l hl
      rcases mem_splitlines_joinNl ks hnb l hl with h | h
      · exact hkeep l h
      · subst h
        decide
    have hy_sp : noTwoSpaces (pyStrip (joinNl ks)) :=
      List.Chain'.infix hw_sp (pyStrip_inf (joinNl ks))
    have hy_only : onlyNlBreaks (pyStrip (joinNl ks)) := by
      intro ch hch hbr
      exact hw_only ch (List.IsInfix.subset (pyStrip_inf (joinNl ks)) hch) hbr
    have hy_keep : keepAllLines (pyStrip (joinNl ks)) := keepAll_pyStrip _ hw_keep
    have hy_last : ¬ (pyStrip (joinNl ks)).getLast? = some '\n' :=
      pyStrip_getLast_ne_nl (joinNl ks)
    show pyStrip (joinNl ((splitlines (collapseSpaces (pyStrip (joinNl ks)))).filter keepLine))
        = pyStrip (joinNl ks)
    rw [collapse_eq_self _ hy_sp, List.filter_eq_self.mpr hy_keep,
      joinNl_splitlines _ hy_only hy_last, pyStrip_idem]
  show sanitizeTail (pyStrip (joinNl ((splitlines (collapseSpaces z)).filter keepLine)))
      = pyStrip (joinNl ((splitlines (collapseSpaces z)).filter keepLine))
  refine hmain _ ?_ ?_ ?_
  · exact fun k hk => mem_splitlines_no_break _ k (List.mem_of_mem_filter hk)
  · exact fun k hk => List.of_mem_filter hk
  · exact fun k hk =>
      List.Chain'.infix (noTwoSpaces_collapse z) (splitlines_mem_inf _ k (List.mem_of_mem_filter hk))

/-- C1 (amended): `sanitize_answer` is not idempotent in general (see the
counterexample), but it is idempotent on every input whose sanitized output
is left unchanged by the three token-removal passes (`score: N.NN` removal,
bracketed and parenthesized `node_id` removal) — in particular whenever the
first pass leaves no removable token behind.  Under those hypotheses the
second application changes nothing, because the space collapsing, the
`Note:`/`Validation:` line filter and the final strip are jointly
idempotent. -/
theorem claim_C1_amended (x : Str)
    (h1 : rsScore (sanitize_answer x) = sanitize_answer x)
    (h2 : rbNodeId (sanitize_answer x) = sanitize_answer x)
    (h3 : rpNodeId (sanitize_answer x) = sanitize_answer x) :
    sanitize_answer (sanitize_answer x) = sanitize_answer x := by
  show sanitizeTail (rpNodeId (rbNodeId (rsScore (sanitize_answer x)))) = sanitize_answer x
  rw [h1, h2, h3]
  show sanitizeTail (sanitizeTail (rpNodeId (rbNodeId (rsScore x)))) = sanitize_answer x
  exact sanitizeTail_idem (rpNodeId (rbNodeId (rsScore x)))

unseal rsScore rmNodeId collapseSpaces splitlines in
theorem claim_C1_amended_witness :
    rsScore (sanitize_answer ("Day 1: hello".toList)) = sanitize_answer ("Day 1: hello".toList) ∧
    rbNodeId (sanitize_answer ("Day 1: hello".toList)) = sanitize_answer ("Day 1: hello".toList) ∧
    rpNodeId (sanitize_answer ("Day 1: hello".toList)) = sanitize_answer ("Day 1: hello".toList) ∧
    sanitize_answer (sanitize_answer ("Day 1: hello".toList))
      = sanitize_answer ("Day 1: hello".toList) :=
  ⟨by decide, by decide, by decide,
    claim_C1_amended ("Day 1: hello".toList) (by decide) (by decide) (by decide)⟩

end HybridChat
